import Mathlib

/-
  Verification of the panorama / door-detection core of the
  structured-indoor-modeling repository.

  Shallow embedding conventions:
  * C++ doubles/floats are modelled by exact rationals (ℚ) or, where a
    construct is irrational (Euclidean norms, Gaussian kernels, sqrt(2)
    diagonal steps), by ℝ or by ℤ√2 (Zsqrtd 2).
  * the float sentinel numeric_limits<float>::max() is modelled by ⊤ of a
    WithTop type.
  * fallible code (exit(1) on a failed check) returns an Option, none being
    the fatal branch.
  Each definition mirrors one function of src/floorplan/panorama.cc or
  src/segmentation/door_detection.cc; the C++ file and line are noted.
-/

/-! ## Panorama: homogeneous 4x4 transforms (src/floorplan/panorama.cc) -/

/-- A 3-vector of rationals (Eigen::Vector3d). -/
structure V3 where
  x : ℚ
  y : ℚ
  z : ℚ
deriving DecidableEq

/-- A homogeneous 4-vector of rationals (Eigen::Vector4d). -/
structure V4 where
  x : ℚ
  y : ℚ
  z : ℚ
  w : ℚ
deriving DecidableEq

/-- A 4x4 matrix given by its rows (Eigen::Matrix4d). -/
structure M4 where
  r0 : V4
  r1 : V4
  r2 : V4
  r3 : V4
deriving DecidableEq

/-- Dot product of two 4-vectors. -/
def dot4 (a b : V4) : ℚ :=
  a.x * b.x + a.y * b.y + a.z * b.z + a.w * b.w

/-- Matrix-vector product of a 4x4 matrix with a homogeneous 4-vector. -/
def apply4 (m : M4) (v : V4) : V4 :=
  ⟨dot4 m.r0 v, dot4 m.r1 v, dot4 m.r2 v, dot4 m.r3 v⟩

/-- Panorama::InitCameraParameters (panorama.cc:196-226): from the loaded
`local_to_global` matrix, the code builds `global_to_local` as the transpose
of the upper-left 3x3 rotation block, the translation column set to
`-rotationᵀ * translation`, and bottom row (0,0,0,1). -/
def globalToLocalMatrix (L : M4) : M4 :=
  ⟨⟨L.r0.x, L.r1.x, L.r2.x, -(L.r0.x * L.r0.w + L.r1.x * L.r1.w + L.r2.x * L.r2.w)⟩,
   ⟨L.r0.y, L.r1.y, L.r2.y, -(L.r0.y * L.r0.w + L.r1.y * L.r1.w + L.r2.y * L.r2.w)⟩,
   ⟨L.r0.z, L.r1.z, L.r2.z, -(L.r0.z * L.r0.w + L.r1.z * L.r1.w + L.r2.z * L.r2.w)⟩,
   ⟨0, 0, 0, 1⟩⟩

/-- Panorama::GlobalToLocal (panorama.cc:65-69): multiply `global_to_local`
with the homogeneous point and keep the first three components. -/
def globalToLocal (G : M4) (p : V3) : V3 :=
  let local4 := apply4 G ⟨p.x, p.y, p.z, 1⟩
  ⟨local4.x, local4.y, local4.z⟩

/-- Panorama::LocalToGlobal (panorama.cc:71-75).  NOTE: the source returns
`Vector3d(global4[0], global4[1], local4[2])` - the third component is taken
from the INPUT homogeneous vector `local4`, not from the transformed
`global4`; this embedding reproduces that faithfully. -/
def localToGlobal (L : M4) (p : V3) : V3 :=
  let local4 : V4 := ⟨p.x, p.y, p.z, 1⟩
  let global4 := apply4 L local4
  ⟨global4.x, global4.y, local4.z⟩

/-! ## Panorama::Project pixel-x computation (panorama.cc:30-50)

The azimuth `theta = -atan2(local.y, local.x)` is an arbitrary real; the
remaining arithmetic of the horizontal pixel coordinate is modelled exactly,
with the constant `2*M_PI` kept as a parameter `twoPi` (the statement holds
for every positive value of it, in particular for 2π). -/

/-- The horizontal pixel coordinate computed by Panorama::Project from the
azimuth `theta`: normalize negative angles by adding `twoPi`, clamp the ratio
`theta/twoPi` to [0,1], force an exact 1.0 down to 0.0, then scale by the
image width. -/
def projectU (twoPi width theta : ℚ) : ℚ :=
  let thetaNorm := if theta < 0 then theta + twoPi else theta
  let thetaRatio := max 0 (min 1 (thetaNorm / twoPi))
  let thetaRatioWrapped := if thetaRatio = 1 then 0 else thetaRatio
  thetaRatioWrapped * width

/-! ## VisibilityDistance (src/segmentation/door_detection.cc:518-545)

A weighted-visibility signature is a sparse list of
(boundary index, weight) pairs. -/

/-- The accumulation loop of VisibilityDistance (door_detection.cc:524-541):
walk both signatures in order; equal front indices are both skipped and
contribute nothing, otherwise the smaller front index contributes its own
weight. -/
def visAux : List (ℕ × ℚ) → List (ℕ × ℚ) → ℚ
  | [], [] => 0
  | [], r :: rs => r.2 + visAux [] rs
  | l :: ls, [] => l.2 + visAux ls []
  | l :: ls, r :: rs =>
    if l.1 = r.1 then visAux ls rs
    else if l.1 < r.1 then l.2 + visAux ls (r :: rs)
    else r.2 + visAux (l :: ls) rs
termination_by l r => l.length + r.length

/-- VisibilityDistance (door_detection.cc:518-545): the accumulated sum
divided by 2. -/
def visibilityDistance (lhs rhs : List (ℕ × ℚ)) : ℚ :=
  visAux lhs rhs / 2

/-- Sum of the weights of a signature. -/
def sigWeightSum (s : List (ℕ × ℚ)) : ℚ :=
  (s.map Prod.snd).sum

/-- All weights of a signature are non-negative. -/
def sigNonneg (s : List (ℕ × ℚ)) : Prop :=
  ∀ p ∈ s, 0 ≤ p.2

/-- The boundary indices of a signature. -/
def sigIndices (s : List (ℕ × ℚ)) : List ℕ :=
  s.map Prod.fst

/-- A signature is strictly ascending in its boundary indices (the shape
produced by AssociateWeightToVisibility, door_detection.cc:473-516). -/
def sigSorted (s : List (ℕ × ℚ)) : Prop :=
  (sigIndices s).Pairwise (· < ·)

/-- Sum of the weights of the entries of `a` whose boundary index does not
occur in `b`. -/
def sumExcl (a b : List (ℕ × ℚ)) : ℚ :=
  (a.map (fun p => if p.1 ∈ sigIndices b then 0 else p.2)).sum

/-- The total weight a signature carries at one boundary index, reading the
signature as a sparse vector over the boundary-index domain. -/
def weightAt (s : List (ℕ × ℚ)) (i : ℕ) : ℚ :=
  ((s.filter (fun p => p.1 = i)).map Prod.snd).sum

/-- Modelled from the spec sentence of the claim: half the L1 distance
between the two signatures treated as sparse vectors over the
boundary-index domain.  This is the comparison definition for the
refinement claim, not a translation of the source. -/
def specHalfL1 (a b : List (ℕ × ℚ)) : ℚ :=
  (((a.map Prod.fst ++ b.map Prod.fst).dedup).map
    (fun i => |weightAt a i - weightAt b i|)).sum / 2

/-! ## Sweeps and the rasterization Frame
(src/segmentation/door_detection.cc:794-897) -/

/-- One (position, normal, weight) sample of a sweep. -/
structure SweepPoint where
  position : V3
  normal : V3
  weight : ℚ

/-- A scan origin plus its samples (door_detection.h Sweep). -/
structure Sweep where
  center : V3
  points : List SweepPoint

/-- The 2D rasterization context (door_detection.h Frame): three axes, three
per-axis ranges, a metric-to-pixel unit and a raster size. -/
structure Frame where
  axes : Fin 3 → V3
  ranges : Fin 3 → ℚ × ℚ
  unit : ℚ
  size : Fin 3 → ℤ

/-- Dot product of two 3-vectors. -/
def dot3 (a b : V3) : ℚ :=
  a.x * b.x + a.y * b.y + a.z * b.z

/-- The per-axis histogram of SetRanges (door_detection.cc:816-824): every
point position of every sweep projected on the frame axis `a`. -/
def axisHistogram (sweeps : List Sweep) (frame : Frame) (a : Fin 3) : List ℚ :=
  sweeps.flatMap (fun sweep => sweep.points.map (fun p => dot3 p.position (frame.axes a)))

/-- The range fit of SetRanges for one axis (door_detection.cc:826-842): sort
the histogram, take the elements at positions `size*1/100` and `size*99/100`
(the C++ nth_element calls on an already sorted vector leave it unchanged),
and widen by 5 percent of their difference on each side. -/
def axisRange (hist : List ℚ) : ℚ × ℚ :=
  let sorted := hist.mergeSort (fun a b => a ≤ b)
  let n := hist.length
  let pos5 := sorted.getD (n * 1 / 100) 0
  let pos95 := sorted.getD (n * 99 / 100) 0
  let diff := pos95 - pos5
  let margin := diff * 5 / 100
  (pos5 - margin, pos95 + margin)

/-- SetRanges (door_detection.cc:812-866): fit the three ranges, guess the
unit from the average distance, cap the resolution at 600 (the division
`max_current_resolution / kMaxResolution` is C++ integer division), and set
the raster size. -/
def setRanges (sweeps : List Sweep) (average_distance : ℚ) (frame : Frame) : Frame :=
  let ranges := fun a => axisRange (axisHistogram sweeps frame a)
  let unit0 := average_distance / 50
  let width : ℤ := round (((ranges 0).2 - (ranges 0).1) / unit0)
  let height : ℤ := round (((ranges 1).2 - (ranges 1).1) / unit0)
  let kMaxResolution : ℤ := 600
  let maxCurrentResolution := max width height
  let unit := if kMaxResolution < maxCurrentResolution
    then unit0 * ((maxCurrentResolution / kMaxResolution : ℤ) : ℚ)
    else unit0
  { frame with
    ranges := ranges
    unit := unit
    size := fun a => round (((ranges a).2 - (ranges a).1) / unit) }

/-- The Euclidean norm of a rational 3-vector, as a real number
(Eigen .norm()). -/
noncomputable def norm3 (v : V3) : ℝ :=
  Real.sqrt ((v.x : ℝ) ^ 2 + (v.y : ℝ) ^ 2 + (v.z : ℝ) ^ 2)

/-- Difference of two 3-vectors. -/
def sub3 (a b : V3) : V3 :=
  ⟨a.x - b.x, a.y - b.y, a.z - b.z⟩

/-- The total number of points over all sweeps (the `count` accumulator of
ComputeAverageDistance). -/
def totalPointCount (sweeps : List Sweep) : ℕ :=
  (sweeps.map (fun sweep => sweep.points.length)).sum

/-- The Euclidean distances ‖point.position - sweep.center‖ of all points of
all sweeps, flattened into one list. -/
noncomputable def allDistances (sweeps : List Sweep) : List ℝ :=
  sweeps.flatMap (fun sweep =>
    sweep.points.map (fun p => norm3 (sub3 p.position sweep.center)))

/-- ComputeAverageDistance (door_detection.cc:880-897): the two accumulators
`average_distance` and `count` are threaded through the nested loops; on a
zero count the function logs and returns the fallback constant 1.0,
otherwise the accumulated sum divided by the count. -/
noncomputable def computeAverageDistance (sweeps : List Sweep) : ℝ :=
  let acc := sweeps.foldl
    (fun a sweep => sweep.points.foldl
      (fun b p => (b.1 + norm3 (sub3 p.position sweep.center), b.2 + 1)) a)
    ((0 : ℝ), (0 : ℕ))
  if acc.2 = 0 then 1 else acc.1 / (acc.2 : ℝ)

/-! ## Panorama::GetRGB and IsInsideRGB (panorama.cc:87-116, 143-150)

The RGB raster is a function from (row, column) to a color triple; pixel
coordinates are exact rationals. -/

/-- An RGB color triple (cv::Vec3b entries, kept rational). -/
structure RGBVal where
  b : ℚ
  g : ℚ
  r : ℚ
deriving DecidableEq

/-- Scale a color triple by a weight. -/
def smulRGB (w : ℚ) (c : RGBVal) : RGBVal :=
  ⟨w * c.b, w * c.g, w * c.r⟩

/-- Add two color triples componentwise. -/
def addRGB (a c : RGBVal) : RGBVal :=
  ⟨a.b + c.b, a.g + c.g, a.r + c.r⟩

/-- Panorama::IsInsideRGB (panorama.cc:143-150): false iff the pixel is
outside the valid RGB sampling domain. -/
def isInsideRGB (width height : ℕ) (u v : ℚ) : Bool :=
  if u < 0 ∨ (width : ℚ) ≤ u ∨ v < 0 ∨ (height : ℚ) - 1 ≤ v then false else true

/-- Panorama::GetRGB (panorama.cc:87-116): fatal exit (modelled as `none`)
outside the sampling domain, otherwise bilinear interpolation of the four
neighboring texels, the right-hand column index wrapping modulo the image
width and the lower row index not wrapping. -/
def getRGB (width height : ℕ) (img : ℕ → ℕ → RGBVal) (u v : ℚ) : Option RGBVal :=
  if ¬ isInsideRGB width height u v then none
  else
    let u0 : ℤ := ⌊u⌋
    let v0 : ℤ := ⌊v⌋
    let u1 : ℤ := u0 + 1
    let v1 : ℤ := v0 + 1
    let weight00 := ((u1 : ℚ) - u) * ((v1 : ℚ) - v)
    let weight01 := (u - (u0 : ℚ)) * ((v1 : ℚ) - v)
    let weight10 := ((u1 : ℚ) - u) * (v - (v0 : ℚ))
    let weight11 := (u - (u0 : ℚ)) * (v - (v0 : ℚ))
    let u1corrected := u1 % (width : ℤ)
    some (addRGB (addRGB (smulRGB weight00 (img v0.toNat u0.toNat))
                         (smulRGB weight01 (img v0.toNat u1corrected.toNat)))
                 (addRGB (smulRGB weight10 (img v1.toNat u0.toNat))
                         (smulRGB weight11 (img v1.toNat u1corrected.toNat))))

/-! ## Clustering: Merge (door_detection.cc:695-766) and
UpdateCenters (door_detection.cc:568-595)

The candidate signatures `weighted_visibility` are modelled as a total
function from candidate index to signature; centers and clusters hold
candidate indices. -/

/-- The (i, j) index pairs with i < j < n, in the scan order of the C++
double loops. -/
def pairsList (n : ℕ) : List (ℕ × ℕ) :=
  (List.range n).flatMap (fun i => ((List.range n).drop (i + 1)).map (fun j => (i, j)))

/-- The distance matrix of Merge (door_detection.cc:702-715): entries above
the diagonal hold the VisibilityDistance of the two centers, every other
entry stays at the float-max sentinel. -/
def distMatrix (wv : ℕ → List (ℕ × ℚ)) (centers : List ℕ) : ℕ → ℕ → WithTop ℚ :=
  fun i j =>
    if i < j ∧ j < centers.length then
      (visibilityDistance (wv (centers.getD i 0)) (wv (centers.getD j 0)) : WithTop ℚ)
    else ⊤

/-- The closest-pair scan of Merge (door_detection.cc:719-729): fold over all
pairs keeping the first strictly smaller entry, starting from the float-max
sentinel and the default pair (0,0). -/
def findClosest (n : ℕ) (d : ℕ → ℕ → WithTop ℚ) : WithTop ℚ × (ℕ × ℕ) :=
  (pairsList n).foldl
    (fun acc p => if d p.1 p.2 < acc.1 then (d p.1 p.2, p) else acc)
    (⊤, (0, 0))

/-- The row/column invalidation of Merge (door_detection.cc:733-739): every
entry in a row or column of either merged index becomes the sentinel. -/
def invalidate (d : ℕ → ℕ → WithTop ℚ) (p : ℕ × ℕ) : ℕ → ℕ → WithTop ℚ :=
  fun i j => if i = p.1 ∨ i = p.2 ∨ j = p.1 ∨ j = p.2 then ⊤ else d i j

/-- The while(true) loop of Merge (door_detection.cc:717-743), collecting
`pairs_to_merge`.  Each iteration invalidates the chosen pair, so at most
n*n iterations can record a pair; the fuel n*n+1 passed by `mergeFn` is
therefore never exhausted before the natural break. -/
def mergeLoop (threshold : ℚ) : ℕ → ℕ → (ℕ → ℕ → WithTop ℚ) → List (ℕ × ℕ)
  | 0, _, _ => []
  | fuel + 1, n, d =>
    let c := findClosest n d
    if c.1 < (threshold : WithTop ℚ) then
      c.2 :: mergeLoop threshold fuel n (invalidate d c.2)
    else []

/-- The per-member sums of squared distances of UpdateCenters
(door_detection.cc:580-589), accumulated pairwise exactly as the C++ double
loop does. -/
def sqDistSums (wv : ℕ → List (ℕ × ℚ)) (cluster : List ℕ) : List ℚ :=
  (pairsList cluster.length).foldl
    (fun ds p =>
      let dist := visibilityDistance (wv (cluster.getD p.1 0)) (wv (cluster.getD p.2 0))
      let ds1 := ds.set p.1 (ds.getD p.1 0 + dist * dist)
      ds1.set p.2 (ds1.getD p.2 0 + dist * dist))
    (List.replicate cluster.length 0)

/-- std::min_element: index of the first minimal element (0 for an empty
list). -/
def idxOfMin : List ℚ → ℕ
  | [] => 0
  | h :: t =>
    (t.foldl
      (fun acc v =>
        if v < acc.2.1 then (acc.2.2, v, acc.2.2 + 1) else (acc.1, acc.2.1, acc.2.2 + 1))
      ((0 : ℕ), h, (1 : ℕ))).1

/-- UpdateCenters (door_detection.cc:568-595): the center of each non-empty
cluster becomes its medoid (first member minimizing the summed squared
distances); empty clusters keep the default center 0 of the resized
vector. -/
def updateCenters (wv : ℕ → List (ℕ × ℚ)) (clusters : List (List ℕ)) : List ℕ :=
  clusters.map (fun cluster =>
    if cluster.isEmpty then 0 else cluster.getD (idxOfMin (sqDistSums wv cluster)) 0)

/-- Merge (door_detection.cc:695-766): build the distance matrix, greedily
collect mergeable pairs, and either return (false, unchanged state) when no
pair was below the threshold, or fuse the paired clusters, erase the
absorbed ones in descending index order, recompute centers, and return
true. -/
def mergeFn (wv : ℕ → List (ℕ × ℚ)) (threshold : ℚ)
    (centers : List ℕ) (clusters : List (List ℕ)) :
    Bool × List ℕ × List (List ℕ) :=
  let n := centers.length
  let pairs := mergeLoop threshold (n * n + 1) n (distMatrix wv centers)
  if pairs.isEmpty then (false, centers, clusters)
  else
    let clusters1 := pairs.foldl
      (fun cs p => cs.set p.1 (cs.getD p.1 [] ++ cs.getD p.2 [])) clusters
    let eraseIds := (pairs.map Prod.snd).mergeSort (fun a b => b ≤ a)
    let clusters2 := eraseIds.foldl (fun cs i => cs.eraseIdx i) clusters1
    (true, updateCenters wv clusters2, clusters2)

/-! ## BlurField (door_detection.cc:148-196)

The field and the mask are functions of the flat row-major index; the
Gaussian kernel entries are exact reals. -/

/-- half_size (door_detection.cc:154): static_cast<int>(ceil(2*sigma));
for non-negative sigma the cast of the C++ ceil equals the integer
ceiling. -/
noncomputable def blurHalfSize (σ : ℝ) : ℤ :=
  ⌈2 * σ⌉

/-- One precomputed kernel entry (door_detection.cc:156-162): the Gaussian
weight of the offset (i, j). -/
noncomputable def kernelVal (σ : ℝ) (i j : ℤ) : ℝ :=
  Real.exp (-(((i : ℝ) * i + (j : ℝ) * j)) / (2 * σ * σ))

/-- The kernel taps accumulated for the cell (x, y)
(door_detection.cc:173-188): offsets within the kernel window whose target
cell is inside the raster and inside the mask. -/
def blurTaps (width height : ℕ) (mask : ℕ → Bool) (half : ℤ) (x y : ℕ) :
    Finset (ℤ × ℤ) :=
  ((Finset.Icc (-half) half) ×ˢ (Finset.Icc (-half) half)).filter (fun ij =>
    0 ≤ (y : ℤ) + ij.2 ∧ (y : ℤ) + ij.2 < height ∧
    0 ≤ (x : ℤ) + ij.1 ∧ (x : ℤ) + ij.1 < width ∧
    mask ((((y : ℤ) + ij.2) * width + ((x : ℤ) + ij.1)).toNat) = true)

/-- The denominator accumulated for the cell (x, y)
(door_detection.cc:186): the sum of the in-mask kernel weights. -/
noncomputable def blurDenom (width height : ℕ) (mask : ℕ → Bool) (σ : ℝ)
    (x y : ℕ) : ℝ :=
  ∑ ij ∈ blurTaps width height mask (blurHalfSize σ) x y, kernelVal σ ij.1 ij.2

/-- The numerator accumulated for the cell (x, y)
(door_detection.cc:185): old field values weighted by the kernel. -/
noncomputable def blurNumer (width height : ℕ) (mask : ℕ → Bool) (σ : ℝ)
    (field : ℕ → ℝ) (x y : ℕ) : ℝ :=
  ∑ ij ∈ blurTaps width height mask (blurHalfSize σ) x y,
    field ((((y : ℤ) + ij.2) * width + ((x : ℤ) + ij.1)).toNat) * kernelVal σ ij.1 ij.2

open Classical in
/-- BlurField (door_detection.cc:148-196): every in-mask cell is replaced by
the mask-normalized Gaussian blur of the old field; a zero denominator at
any processed cell is the fatal "Impossible" branch, modelled as `none`. -/
noncomputable def blurField (width height : ℕ) (mask : ℕ → Bool) (σ : ℝ)
    (field : ℕ → ℝ) : Option (ℕ → ℝ) :=
  if ∃ y < height, ∃ x < width, mask (y * width + x) = true ∧
      blurDenom width height mask σ x y = 0 then none
  else some (fun idx =>
    if idx < width * height ∧ mask idx = true then
      blurNumer width height mask σ field (idx % width) (idx / width) /
        blurDenom width height mask σ (idx % width) (idx / width)
    else field idx)

/-! ## SetDistanceToBoundary (door_detection.cc:238-285)

Path costs over the 8-connected grid are exact elements of ℤ√2; the float
sentinel is ⊤ of WithTop.  The priority-queue wavefront is modelled as a
step relation on (distance array, queue multiset) states: one step removes
an arbitrary queue entry and relaxes the 8 neighbors with the entry's
recorded score, exactly as the C++ loop body does.  The C++
std::priority_queue pops the entry maximizing (-score, (x,y)), which is one
admissible choice of the relation, so every theorem quantified over all
terminating executions covers the C++ execution. -/

instance : Zsqrtd.Nonsquare 2 :=
  ⟨fun n h => by
    rcases n with _ | _ | n
    · simp at h
    · simp at h
    · nlinarith⟩

/-- Exact path costs: integers combined with multiples of sqrt(2). -/
abbrev Cost := Zsqrtd ((2 : ℕ) : ℤ)

/-- The rasterized free-space grid: dimensions and the row-major boolean
mask (vector<bool>). -/
structure DGrid where
  width : ℕ
  height : ℕ
  mask : List Bool

/-- The flat row-major index of the cell (x, y) (the C++ expression
y * width + x, computed in ℤ). -/
def cellIdx (g : DGrid) (x y : ℤ) : ℤ :=
  y * (g.width : ℤ) + x

/-- The mask read `mask[i]`.  The C++ read has undefined behavior out of
range; the model totalizes it to false, which is never observable under the
border-free-mask hypothesis of the theorems (every executed access is then
in range). -/
def maskAt (g : DGrid) (i : ℤ) : Bool :=
  if 0 ≤ i ∧ i < ((g.width * g.height : ℕ) : ℤ) then g.mask.getD i.toNat false
  else false

/-- The source-scan condition of SetDistanceToBoundary
(door_detection.cc:246-258): an interior-scan cell that is inside the mask
and has at least one 4-neighbor (as a flat-index offset) outside it. -/
def isSourceScan (g : DGrid) (x y : ℤ) : Bool :=
  1 ≤ x && x ≤ (g.width : ℤ) - 2 && (1 ≤ y && y ≤ (g.height : ℤ) - 2) &&
  maskAt g (cellIdx g x y) &&
  (!maskAt g (cellIdx g x y - 1) || !maskAt g (cellIdx g x y + 1) ||
   !maskAt g (cellIdx g x y - (g.width : ℤ)) || !maskAt g (cellIdx g x y + (g.width : ℤ)))

/-- The source cells, in the scan order of the C++ double loop
(y from 1 to height-2, x from 1 to width-2). -/
def sourceCells (g : DGrid) : List (ℤ × ℤ) :=
  ((List.range (g.height - 2)).map (fun k : ℕ => (k : ℤ) + 1)).flatMap (fun y =>
    ((List.range (g.width - 2)).map (fun k : ℕ => (k : ℤ) + 1)).filterMap (fun x =>
      if isSourceScan g x y then some (x, y) else none))

/-- A wavefront state: the distance array (⊤ is the float-max sentinel) and
the pending queue entries (score, x, y). -/
structure DState where
  dist : ℤ → WithTop Cost
  queue : List (Cost × ℤ × ℤ)

/-- The initialization of SetDistanceToBoundary (door_detection.cc:243-258):
sources at distance 0 and pushed, everything else at the sentinel. -/
def initDState (g : DGrid) : DState where
  dist := fun i =>
    if (sourceCells g).any (fun c => cellIdx g c.1 c.2 = i) then 0 else ⊤
  queue := (sourceCells g).map (fun c => (0, c))

/-- The 8 neighbor offsets (i, j) in the scan order of the C++ loops
(j outer from -1 to 1, i inner, skipping (0,0)). -/
def offsets8 : List (ℤ × ℤ) :=
  [(-1, -1), (0, -1), (1, -1), (-1, 0), (1, 0), (-1, 1), (0, 1), (1, 1)]

/-- sqrt(i*i + j*j) for the neighbor offsets: 1 for an axis-aligned step,
sqrt(2) for a diagonal one. -/
def stepCost (i j : ℤ) : Cost :=
  if i ≠ 0 ∧ j ≠ 0 then ⟨0, 1⟩ else ⟨1, 0⟩

/-- One neighbor relaxation of the wavefront loop body
(door_detection.cc:268-283): skip cells outside the mask, otherwise compare
the popped score plus the step cost against the recorded distance, and on
improvement record it and push. -/
def relaxOne (g : DGrid) (s : Cost) (x y : ℤ) (st : DState) (off : ℤ × ℤ) : DState :=
  let ni := cellIdx g (x + off.1) (y + off.2)
  if ¬ maskAt g ni then st
  else
    let ns := s + stepCost off.1 off.2
    if (ns : WithTop Cost) < st.dist ni then
      { dist := fun k => if k = ni then (ns : WithTop Cost) else st.dist k
        queue := (ns, x + off.1, y + off.2) :: st.queue }
    else st

/-- The full loop body for one popped entry: relax all 8 neighbors. -/
def relaxAll (g : DGrid) (s : Cost) (x y : ℤ) (st : DState) : DState :=
  offsets8.foldl (relaxOne g s x y) st

/-- One iteration of the wavefront while-loop (door_detection.cc:260-285):
remove a queue entry and relax its 8 neighbors with its recorded score.  The
entry choice is left nondeterministic; the C++ priority-queue order is one
admissible choice. -/
inductive DStep (g : DGrid) : DState → DState → Prop
  | pop (s : Cost) (x y : ℤ) (pre post : List (Cost × ℤ × ℤ)) (st : DState)
      (h : st.queue = pre ++ (s, x, y) :: post) :
      DStep g st (relaxAll g s x y ⟨st.dist, pre ++ post⟩)

/-- The cost of an 8-connected path of mask-true cells from a source cell to
(x, y): 0 for a source itself, and each extension by one 8-neighbor step
into the mask adds the step cost. -/
inductive ValidPath (g : DGrid) : ℤ → ℤ → Cost → Prop
  | src (x y : ℤ) (h : isSourceScan g x y = true) : ValidPath g x y 0
  | step (x y dx dy : ℤ) (c : Cost) (hp : ValidPath g x y c)
      (hdx : dx.natAbs ≤ 1) (hdy : dy.natAbs ≤ 1) (hne : ¬(dx = 0 ∧ dy = 0))
      (hm : maskAt g (cellIdx g (x + dx) (y + dy)) = true) :
      ValidPath g (x + dx) (y + dy) (c + stepCost dx dy)

/-- The claim's description of a distance-0 source: a mask-true non-border
cell with at least one false 4-neighbor (neighbors taken in coordinates). -/
def isSourceSpec (g : DGrid) (x y : ℤ) : Prop :=
  maskAt g (cellIdx g x y) = true ∧
  (0 < x ∧ x < (g.width : ℤ) - 1 ∧ 0 < y ∧ y < (g.height : ℤ) - 1) ∧
  (maskAt g (cellIdx g (x - 1) y) = false ∨ maskAt g (cellIdx g (x + 1) y) = false ∨
   maskAt g (cellIdx g x (y - 1)) = false ∨ maskAt g (cellIdx g x (y + 1)) = false)

/-- The mask has no true cell on the outer one-pixel border (the documented
invariant of the masks produced by SetMask, door_detection.cc:221-236):
every mask-true in-range cell is interior. -/
def InteriorMask (g : DGrid) : Prop :=
  ∀ x y : ℤ, 0 ≤ x → x < (g.width : ℤ) → 0 ≤ y → y < (g.height : ℤ) →
    maskAt g (cellIdx g x y) = true →
    1 ≤ x ∧ x ≤ (g.width : ℤ) - 2 ∧ 1 ≤ y ∧ y ≤ (g.height : ℤ) - 2

/-- The inductive invariant of the wavefront loop: distances outside the
mask stay at the sentinel, sources stay at 0, every finite distance is the
cost of some valid path to that cell, every queue entry carries the cost of
a valid path to its cell and is an upper bound for the recorded distance,
and every finite-distance mask cell either still has a covering queue entry
or is fully relaxed against its 8 neighbors. -/
structure DInv (g : DGrid) (st : DState) : Prop where
  dMask : ∀ i : ℤ, maskAt g i = false → st.dist i = ⊤
  dSrc : ∀ x y : ℤ, isSourceScan g x y = true → st.dist (cellIdx g x y) = 0
  dPath : ∀ i : ℤ, st.dist i ≠ ⊤ →
    ∃ x y : ℤ, ∃ c : Cost, i = cellIdx g x y ∧ ValidPath g x y c ∧
      st.dist i = (c : WithTop Cost)
  qPath : ∀ e ∈ st.queue, ValidPath g e.2.1 e.2.2 e.1
  qDist : ∀ e ∈ st.queue, st.dist (cellIdx g e.2.1 e.2.2) ≤ (e.1 : WithTop Cost)
  relaxed : ∀ i : ℤ, maskAt g i = true → st.dist i ≠ ⊤ →
    (∃ e ∈ st.queue, cellIdx g e.2.1 e.2.2 = i ∧ (e.1 : WithTop Cost) ≤ st.dist i) ∨
    (∀ off ∈ offsets8, maskAt g (i + off.2 * (g.width : ℤ) + off.1) = true →
      st.dist (i + off.2 * (g.width : ℤ) + off.1)
        ≤ st.dist i + (stepCost off.1 off.2 : Cost))

/-! # Theorems -/

/-! ## Signature-distance helper lemmas -/

theorem visAux_self (a : List (ℕ × ℚ)) : visAux a a = 0 := by
  induction a with
  | nil => simp [visAux]
  | cons l ls ih => simp [visAux, ih]

theorem visAux_comm (a b : List (ℕ × ℚ)) : visAux a b = visAux b a := by
  induction a, b using visAux.induct with
  | case1 => simp [visAux]
  | case2 r rs ih => simp [visAux, ih]
  | case3 l ls ih => simp [visAux, ih]
  | case4 l ls r rs h ih => simp [visAux, h, ih]
  | case5 l ls r rs h h2 ih =>
    rw [visAux, visAux]
    simp [h, h2, Ne.symm h, not_lt.mpr (le_of_lt h2), ih]
  | case6 l ls r rs h h2 ih =>
    rw [visAux, visAux]
    have h3 : l.1 ≠ r.1 := fun e => h (e ▸ rfl)
    have h4 : r.1 < l.1 := by omega
    simp [h3, Ne.symm h3, h2, h4, not_lt.mpr (le_of_lt h4), ih]

theorem visAux_nonneg (a b : List (ℕ × ℚ)) (ha : sigNonneg a) (hb : sigNonneg b) :
    0 ≤ visAux a b := by
  induction a, b using visAux.induct with
  | case1 => simp [visAux]
  | case2 r rs ih =>
    obtain ⟨h1, h2⟩ := List.forall_mem_cons.mp hb
    have := ih ha h2
    rw [visAux]; positivity
  | case3 l ls ih =>
    obtain ⟨h1, h2⟩ := List.forall_mem_cons.mp ha
    have := ih h2 hb
    rw [visAux]; positivity
  | case4 l ls r rs h ih =>
    obtain ⟨ha1, ha2⟩ := List.forall_mem_cons.mp ha
    obtain ⟨hb1, hb2⟩ := List.forall_mem_cons.mp hb
    have := ih ha2 hb2
    simp [visAux, h]; linarith
  | case5 l ls r rs h h2 ih =>
    obtain ⟨ha1, ha2⟩ := List.forall_mem_cons.mp ha
    have := ih ha2 hb
    simp [visAux, h, h2]; linarith
  | case6 l ls r rs h h2 ih =>
    obtain ⟨hb1, hb2⟩ := List.forall_mem_cons.mp hb
    have := ih ha hb2
    simp [visAux, h, h2]; linarith

theorem visAux_le_sum (a b : List (ℕ × ℚ)) (ha : sigNonneg a) (hb : sigNonneg b) :
    visAux a b ≤ sigWeightSum a + sigWeightSum b := by
  induction a, b using visAux.induct with
  | case1 => simp [visAux, sigWeightSum]
  | case2 r rs ih =>
    obtain ⟨h1, h2⟩ := List.forall_mem_cons.mp hb
    have := ih ha h2
    simp only [visAux, sigWeightSum, List.map_cons, List.sum_cons] at *
    linarith
  | case3 l ls ih =>
    obtain ⟨h1, h2⟩ := List.forall_mem_cons.mp ha
    have := ih h2 hb
    simp only [visAux, sigWeightSum, List.map_cons, List.sum_cons] at *
    linarith
  | case4 l ls r rs h ih =>
    obtain ⟨ha1, ha2⟩ := List.forall_mem_cons.mp ha
    obtain ⟨hb1, hb2⟩ := List.forall_mem_cons.mp hb
    have := ih ha2 hb2
    simp only [visAux, sigWeightSum, List.map_cons, List.sum_cons, h, if_true] at *
    linarith
  | case5 l ls r rs h h2 ih =>
    obtain ⟨ha1, ha2⟩ := List.forall_mem_cons.mp ha
    have := ih ha2 hb
    simp only [visAux, sigWeightSum, List.map_cons, List.sum_cons, h, h2, if_true, if_false] at *
    linarith
  | case6 l ls r rs h h2 ih =>
    obtain ⟨hb1, hb2⟩ := List.forall_mem_cons.mp hb
    have := ih ha hb2
    simp only [visAux, sigWeightSum, List.map_cons, List.sum_cons, h, h2, if_true, if_false] at *
    linarith

theorem sumExcl_nil_left (b : List (ℕ × ℚ)) : sumExcl [] b = 0 := by
  simp [sumExcl]

theorem sumExcl_nil_right (a : List (ℕ × ℚ)) : sumExcl a [] = sigWeightSum a := by
  simp [sumExcl, sigIndices, sigWeightSum]

theorem sumExcl_cons_left (x : ℕ × ℚ) (l b : List (ℕ × ℚ)) :
    sumExcl (x :: l) b = (if x.1 ∈ sigIndices b then 0 else x.2) + sumExcl l b := by
  simp [sumExcl]

theorem sumExcl_cons_right_notmem (a : List (ℕ × ℚ)) (y : ℕ × ℚ) (r : List (ℕ × ℚ))
    (h : ∀ p ∈ a, p.1 ≠ y.1) : sumExcl a (y :: r) = sumExcl a r := by
  induction a with
  | nil => simp [sumExcl]
  | cons x l ih =>
    have hx := h x (List.mem_cons_self x l)
    have ih2 := ih (fun p hp => h p (List.mem_cons_of_mem x hp))
    have hmem : (x.1 ∈ sigIndices (y :: r)) ↔ (x.1 ∈ sigIndices r) := by
      simp [sigIndices, hx]
    rw [sumExcl_cons_left, sumExcl_cons_left, ih2]
    by_cases hm : x.1 ∈ sigIndices r
    · rw [if_pos hm, if_pos (hmem.mpr hm)]
    · rw [if_neg hm, if_neg (fun c => hm (hmem.mp c))]

theorem sorted_head_notmem (x : ℕ × ℚ) (l : List (ℕ × ℚ)) (hs : sigSorted (x :: l)) :
    ∀ p ∈ l, x.1 < p.1 := by
  intro p hp
  have := (List.pairwise_cons.mp hs).1
  exact this p.1 (List.mem_map_of_mem Prod.fst hp)

theorem visAux_sorted (a b : List (ℕ × ℚ)) (ha : sigSorted a) (hb : sigSorted b) :
    visAux a b = sumExcl a b + sumExcl b a := by
  induction a, b using visAux.induct with
  | case1 => simp [visAux, sumExcl]
  | case2 r rs ih =>
    have hb2 : sigSorted rs := (List.pairwise_cons.mp hb).2
    rw [visAux, ih ha hb2, sumExcl_nil_left rs, sumExcl_nil_left (r :: rs),
      sumExcl_nil_right rs, sumExcl_nil_right (r :: rs)]
    simp [sigWeightSum]
  | case3 l ls ih =>
    have ha2 : sigSorted ls := (List.pairwise_cons.mp ha).2
    rw [visAux, ih ha2 hb, sumExcl_nil_right ls, sumExcl_nil_right (l :: ls),
      sumExcl_nil_left ls, sumExcl_nil_left (l :: ls)]
    simp [sigWeightSum]
  | case4 l ls r rs h ih =>
    have ha2 : sigSorted ls := (List.pairwise_cons.mp ha).2
    have hb2 : sigSorted rs := (List.pairwise_cons.mp hb).2
    have hls : ∀ p ∈ ls, p.1 ≠ r.1 := fun p hp => by
      have := sorted_head_notmem l ls ha p hp
      omega
    have hrs : ∀ p ∈ rs, p.1 ≠ l.1 := fun p hp => by
      have := sorted_head_notmem r rs hb p hp
      omega
    have m1 : l.1 ∈ sigIndices (r :: rs) := by simp [sigIndices, h]
    have m2 : r.1 ∈ sigIndices (l :: ls) := by simp [sigIndices, h.symm]
    rw [visAux]
    simp only [h, if_true]
    rw [ih ha2 hb2, sumExcl_cons_left l ls (r :: rs), sumExcl_cons_left r rs (l :: ls),
      sumExcl_cons_right_notmem ls r rs hls, sumExcl_cons_right_notmem rs l ls hrs,
      if_pos m1, if_pos m2]
    ring
  | case5 l ls r rs h h2 ih =>
    have ha2 : sigSorted ls := (List.pairwise_cons.mp ha).2
    have hrs : ∀ p ∈ r :: rs, p.1 ≠ l.1 := by
      intro p hp
      rcases List.mem_cons.mp hp with h3 | h3
      · subst h3; omega
      · have := sorted_head_notmem r rs hb p h3; omega
    have m1 : l.1 ∉ sigIndices (r :: rs) := by
      intro hm
      simp only [sigIndices, List.mem_map] at hm
      obtain ⟨p, hp, he⟩ := hm
      exact hrs p hp he
    rw [visAux]
    simp only [h, if_false, h2, if_true]
    rw [ih ha2 hb, sumExcl_cons_left l ls (r :: rs),
      sumExcl_cons_right_notmem (r :: rs) l ls hrs, if_neg m1]
    ring
  | case6 l ls r rs h h2 ih =>
    have hb2 : sigSorted rs := (List.pairwise_cons.mp hb).2
    have hls : ∀ p ∈ l :: ls, p.1 ≠ r.1 := by
      intro p hp
      rcases List.mem_cons.mp hp with h3 | h3
      · subst h3; omega
      · have := sorted_head_notmem l ls ha p h3; omega
    have m1 : r.1 ∉ sigIndices (l :: ls) := by
      intro hm
      simp only [sigIndices, List.mem_map] at hm
      obtain ⟨p, hp, he⟩ := hm
      exact hls p hp he
    rw [visAux]
    simp only [h, if_false, h2, if_false]
    rw [ih ha hb2, sumExcl_cons_left r rs (l :: ls),
      sumExcl_cons_right_notmem (l :: ls) r rs hls, if_neg m1]
    ring

/-! ## Claim theorems: C1, C2, C6, C8 -/

/-- C1: the spec claims GlobalToLocal and LocalToGlobal are mutually inverse
and that global_to_local is the exact algebraic inverse of local_to_global.
The matrix built by InitCameraParameters IS the exact inverse (last
conjunct, evaluated at the failing input), but LocalToGlobal returns the
LOCAL z coordinate as its third component (panorama.cc:74 uses local4[2]
instead of global4[2]), so for the rigid transform translating by (0,0,1)
the round trip of the origin yields (0,0,-1) ≠ (0,0,0): the code contradicts
the documented invariant at this input. -/
theorem C1_localToGlobal_z_bug :
    localToGlobal ⟨⟨1,0,0,0⟩, ⟨0,1,0,0⟩, ⟨0,0,1,1⟩, ⟨0,0,0,1⟩⟩ ⟨0,0,0⟩ = ⟨0,0,0⟩ ∧
    globalToLocal (globalToLocalMatrix ⟨⟨1,0,0,0⟩, ⟨0,1,0,0⟩, ⟨0,0,1,1⟩, ⟨0,0,0,1⟩⟩)
      (localToGlobal ⟨⟨1,0,0,0⟩, ⟨0,1,0,0⟩, ⟨0,0,1,1⟩, ⟨0,0,0,1⟩⟩ ⟨0,0,0⟩) = ⟨0,0,-1⟩ ∧
    ((⟨0,0,-1⟩ : V3) ≠ ⟨0,0,0⟩) ∧
    apply4 (globalToLocalMatrix ⟨⟨1,0,0,0⟩, ⟨0,1,0,0⟩, ⟨0,0,1,1⟩, ⟨0,0,0,1⟩⟩)
      (apply4 ⟨⟨1,0,0,0⟩, ⟨0,1,0,0⟩, ⟨0,0,1,1⟩, ⟨0,0,0,1⟩⟩ ⟨0,0,0,1⟩) = ⟨0,0,0,1⟩ := by
  refine ⟨?_, ?_, ?_, ?_⟩
  · simp [localToGlobal, apply4, dot4]
  · simp [localToGlobal, globalToLocal, globalToLocalMatrix, apply4, dot4]
  · simp [V3.mk.injEq]
  · simp [globalToLocalMatrix, apply4, dot4]

/-- C2 (counterexample): VisibilityDistance is NOT half the L1 distance of
the two signatures as sparse vectors: two signatures sharing both boundary
indices 0 and 1 with different weights have VisibilityDistance 0 but half-L1
distance 2/5. -/
theorem C2_halfL1_counterexample :
    visibilityDistance [(0, (3:ℚ)/10), (1, 7/10)] [(0, (7:ℚ)/10), (1, 3/10)] = 0 ∧
    specHalfL1 [(0, (3:ℚ)/10), (1, 7/10)] [(0, (7:ℚ)/10), (1, 3/10)] = 2/5 ∧
    visibilityDistance [(0, (3:ℚ)/10), (1, 7/10)] [(0, (7:ℚ)/10), (1, 3/10)] ≠
      specHalfL1 [(0, (3:ℚ)/10), (1, 7/10)] [(0, (7:ℚ)/10), (1, 3/10)] := by
  have h1 : visibilityDistance [(0, (3:ℚ)/10), (1, 7/10)] [(0, (7:ℚ)/10), (1, 3/10)] = 0 := by
    simp [visibilityDistance, visAux]
  have h2 : specHalfL1 [(0, (3:ℚ)/10), (1, 7/10)] [(0, (7:ℚ)/10), (1, 3/10)] = 2/5 := by
    have hd : (([(0, (3:ℚ)/10), (1, 7/10)].map Prod.fst ++
        [(0, (7:ℚ)/10), (1, 3/10)].map Prod.fst)).dedup = [0, 1] := by rfl
    simp only [specHalfL1]
    rw [hd]
    simp [weightAt]
    norm_num
  exact ⟨h1, h2, by rw [h1, h2]; norm_num⟩

/-- C2 (amended): for signatures sorted strictly ascending by boundary
index, VisibilityDistance equals half the sum of the weights of the entries
whose boundary index occurs in only one of the two signatures; indices
present in both contribute nothing, whatever their weights. -/
theorem C2_visibilityDistance_sparse (l r : List (ℕ × ℚ))
    (hl : sigSorted l) (hr : sigSorted r) :
    visibilityDistance l r = (sumExcl l r + sumExcl r l) / 2 := by
  rw [visibilityDistance, visAux_sorted l r hl hr]

/-- Witness for C2 (amended) at two concrete sorted signatures. -/
theorem C2_visibilityDistance_sparse_witness :
    sigSorted [(0, (1:ℚ)/2), (2, 1/2)] ∧ sigSorted [(1, (1:ℚ))] ∧
    visibilityDistance [(0, (1:ℚ)/2), (2, 1/2)] [(1, (1:ℚ))] =
      (sumExcl [(0, (1:ℚ)/2), (2, 1/2)] [(1, (1:ℚ))] +
       sumExcl [(1, (1:ℚ))] [(0, (1:ℚ)/2), (2, 1/2)]) / 2 :=
  ⟨by norm_num [sigSorted, sigIndices, List.pairwise_cons],
    by norm_num [sigSorted, sigIndices, List.pairwise_cons],
    C2_visibilityDistance_sparse _ _
      (by norm_num [sigSorted, sigIndices, List.pairwise_cons])
      (by norm_num [sigSorted, sigIndices, List.pairwise_cons])⟩

/-- C6: VisibilityDistance of a signature with itself is 0, the function is
symmetric, and for signatures with non-negative weights summing to 1 (the
shape produced by AssociateWeightToVisibility) the result lies in [0,1]. -/
theorem C6_visibilityDistance_metric (a b : List (ℕ × ℚ)) :
    visibilityDistance a a = 0 ∧
    visibilityDistance a b = visibilityDistance b a ∧
    (sigNonneg a → sigNonneg b → sigWeightSum a = 1 → sigWeightSum b = 1 →
      0 ≤ visibilityDistance a b ∧ visibilityDistance a b ≤ 1) := by
  refine ⟨?_, ?_, ?_⟩
  · rw [visibilityDistance, visAux_self]; norm_num
  · rw [visibilityDistance, visibilityDistance, visAux_comm]
  · intro ha hb hsa hsb
    have h1 := visAux_nonneg a b ha hb
    have h2 := visAux_le_sum a b ha hb
    rw [hsa, hsb] at h2
    rw [visibilityDistance]
    constructor
    · linarith
    · linarith

/-- Witness for C6 at two concrete normalized signatures. -/
theorem C6_visibilityDistance_metric_witness :
    sigNonneg [(0, (1:ℚ))] ∧ sigNonneg [(1, (1:ℚ))] ∧
    sigWeightSum [(0, (1:ℚ))] = 1 ∧ sigWeightSum [(1, (1:ℚ))] = 1 ∧
    (0 ≤ visibilityDistance [(0, (1:ℚ))] [(1, (1:ℚ))] ∧
     visibilityDistance [(0, (1:ℚ))] [(1, (1:ℚ))] ≤ 1) :=
  ⟨by norm_num [sigNonneg], by norm_num [sigNonneg],
    by norm_num [sigWeightSum], by norm_num [sigWeightSum],
    (C6_visibilityDistance_metric [(0, (1:ℚ))] [(1, (1:ℚ))]).2.2
      (by norm_num [sigNonneg]) (by norm_num [sigNonneg])
      (by norm_num [sigWeightSum]) (by norm_num [sigWeightSum])⟩

/-- C8: for every positive width and every positive value of the constant
2π, the horizontal pixel coordinate of Project satisfies 0 ≤ u < width for
every azimuth, and an azimuth exactly at (or beyond) the wrap boundary maps
to pixel column 0, never to column width. -/
theorem C8_projectU_seam (twoPi width theta : ℚ) (hp : 0 < twoPi) (hw : 0 < width) :
    (0 ≤ projectU twoPi width theta ∧ projectU twoPi width theta < width) ∧
    (twoPi ≤ theta → projectU twoPi width theta = 0) := by
  constructor
  · simp only [projectU]
    set t := if theta < 0 then theta + twoPi else theta with ht
    set r := max 0 (min 1 (t / twoPi)) with hr
    have hr0 : 0 ≤ r := le_max_left _ _
    have hr1 : r ≤ 1 := max_le (by norm_num) (min_le_left _ _)
    by_cases h1 : r = 1
    · rw [if_pos h1]
      simpa using hw
    · rw [if_neg h1]
      have hlt : r < 1 := lt_of_le_of_ne hr1 h1
      exact ⟨mul_nonneg hr0 hw.le, by nlinarith⟩
  · intro hth
    have ht0 : ¬ theta < 0 := not_lt.mpr (le_trans hp.le hth)
    simp only [projectU, if_neg ht0]
    have h1 : 1 ≤ theta / twoPi := (one_le_div hp).mpr hth
    rw [min_eq_left h1, max_eq_right (by norm_num : (0:ℚ) ≤ 1), if_pos rfl, zero_mul]

/-- Witness for C8 at a concrete azimuth past the wrap boundary. -/
theorem C8_projectU_seam_witness :
    (0 : ℚ) < 7 ∧ (0 : ℚ) < 100 ∧
    (0 ≤ projectU 7 100 7 ∧ projectU 7 100 7 < 100) ∧
    ((7 : ℚ) ≤ 7 → projectU 7 100 7 = 0) :=
  ⟨by norm_num, by norm_num,
    (C8_projectU_seam 7 100 7 (by norm_num) (by norm_num)).1,
    (C8_projectU_seam 7 100 7 (by norm_num) (by norm_num)).2⟩

/-! ## C9: ComputeAverageDistance -/

theorem avgDist_points_foldl (pts : List SweepPoint) (center : V3) (a : ℝ) (c : ℕ) :
    pts.foldl (fun b p => (b.1 + norm3 (sub3 p.position center), b.2 + 1)) (a, c)
      = (a + (pts.map (fun p => norm3 (sub3 p.position center))).sum, c + pts.length) := by
  induction pts generalizing a c with
  | nil => simp
  | cons p ps ih =>
    rw [List.foldl_cons, ih]
    simp only [List.map_cons, List.sum_cons, List.length_cons, Prod.mk.injEq]
    exact ⟨by ring, by omega⟩

theorem avgDist_sweeps_foldl (sweeps : List Sweep) (a : ℝ) (c : ℕ) :
    sweeps.foldl
      (fun a sweep => sweep.points.foldl
        (fun b p => (b.1 + norm3 (sub3 p.position sweep.center), b.2 + 1)) a)
      (a, c)
      = (a + (allDistances sweeps).sum, c + totalPointCount sweeps) := by
  induction sweeps generalizing a c with
  | nil => simp [allDistances, totalPointCount]
  | cons s ss ih =>
    rw [List.foldl_cons, avgDist_points_foldl, ih]
    simp only [allDistances, totalPointCount, List.flatMap_cons, List.sum_append,
      List.map_cons, List.sum_cons, Prod.mk.injEq]
    exact ⟨by ring, by omega⟩

/-- C9: ComputeAverageDistance returns the arithmetic mean of the Euclidean
distances ‖point.position - sweep.center‖ over all points of all sweeps,
and returns exactly the fallback constant 1.0 when the sweeps contain no
points at all. -/
theorem C9_computeAverageDistance (sweeps : List Sweep) :
    (totalPointCount sweeps = 0 → computeAverageDistance sweeps = 1) ∧
    (totalPointCount sweeps ≠ 0 →
      computeAverageDistance sweeps
        = (allDistances sweeps).sum / (totalPointCount sweeps : ℝ)) := by
  have hacc := avgDist_sweeps_foldl sweeps 0 0
  constructor
  · intro h0
    simp only [computeAverageDistance, hacc]
    simp [h0]
  · intro h0
    simp only [computeAverageDistance, hacc]
    simp [h0]

/-- Witness for C9: one sweep with no points triggers the fallback 1.0. -/
theorem C9_computeAverageDistance_witness :
    totalPointCount [Sweep.mk ⟨0, 0, 0⟩ []] = 0 ∧
    computeAverageDistance [Sweep.mk ⟨0, 0, 0⟩ []] = 1 :=
  ⟨rfl, (C9_computeAverageDistance [Sweep.mk ⟨0, 0, 0⟩ []]).1 rfl⟩

/-! ## C5: GetRGB error domain and horizontal wraparound -/

theorem isInsideRGB_iff (width height : ℕ) (u v : ℚ) :
    isInsideRGB width height u v = true ↔
      0 ≤ u ∧ u < width ∧ 0 ≤ v ∧ v < (height : ℚ) - 1 := by
  by_cases hc : (u < 0 ∨ (width : ℚ) ≤ u ∨ v < 0 ∨ (height : ℚ) - 1 ≤ v)
  · rw [isInsideRGB, if_pos hc]
    simp only [Bool.false_eq_true, false_iff]
    rintro ⟨h1, h2, h3, h4⟩
    rcases hc with hc | hc | hc | hc <;> linarith
  · rw [isInsideRGB, if_neg hc]
    push_neg at hc
    simp only [true_iff]
    exact ⟨le_of_not_lt (fun h => absurd h (by simpa using hc.1)), hc.2.1, hc.2.2.1, hc.2.2.2⟩

/-- C5: GetRGB fails (fatally in the reference, `none` here) exactly when
the pixel lies outside [0,width) x [0,height-1); and a pixel whose
horizontal coordinate lies in [width-1, width) blends the last image column
(index width-1) with the first (index 0), the right-hand neighbor index
wrapping modulo the width while the vertical neighbor does not wrap. -/
theorem C5_getRGB_domain_wrap (width height : ℕ) (img : ℕ → ℕ → RGBVal) (u v : ℚ) :
    (getRGB width height img u v = none ↔
      ¬(0 ≤ u ∧ u < width ∧ 0 ≤ v ∧ v < (height : ℚ) - 1)) ∧
    (1 ≤ width → (width : ℚ) - 1 ≤ u → u < width → 0 ≤ v → v < (height : ℚ) - 1 →
      getRGB width height img u v = some
        (addRGB (addRGB
          (smulRGB (((width : ℚ) - u) * ((⌊v⌋ : ℚ) + 1 - v)) (img ⌊v⌋.toNat (width - 1)))
          (smulRGB ((u - ((width : ℚ) - 1)) * ((⌊v⌋ : ℚ) + 1 - v)) (img ⌊v⌋.toNat 0)))
         (addRGB
          (smulRGB (((width : ℚ) - u) * (v - (⌊v⌋ : ℚ))) (img (⌊v⌋.toNat + 1) (width - 1)))
          (smulRGB ((u - ((width : ℚ) - 1)) * (v - (⌊v⌋ : ℚ))) (img (⌊v⌋.toNat + 1) 0))))) := by
  constructor
  · by_cases hin : isInsideRGB width height u v = true
    · rw [getRGB, if_neg (by simp [hin])]
      simp only [reduceCtorEq, false_iff, not_not]
      exact (isInsideRGB_iff width height u v).mp hin
    · rw [getRGB, if_pos (by simpa using hin)]
      simp only [true_iff]
      exact fun hc => hin ((isInsideRGB_iff width height u v).mpr hc)
  · intro hw h1 h2 h3 h4
    have hwq : (1 : ℚ) ≤ (width : ℚ) := by exact_mod_cast hw
    have hin : isInsideRGB width height u v = true :=
      (isInsideRGB_iff width height u v).mpr ⟨by linarith, h2, h3, h4⟩
    have hu0 : ⌊u⌋ = (width : ℤ) - 1 := by
      rw [Int.floor_eq_iff]
      constructor
      · push_cast
        linarith
      · push_cast
        linarith
    have hv0 : 0 ≤ ⌊v⌋ := Int.floor_nonneg.mpr h3
    rw [getRGB, if_neg (by simp [hin])]
    dsimp only
    rw [hu0]
    have hmod : ((width : ℤ) - 1 + 1) % (width : ℤ) = 0 := by
      simp
    have htn : ((width : ℤ) - 1).toNat = width - 1 := by omega
    have hvn : (⌊v⌋ + 1).toNat = ⌊v⌋.toNat + 1 := by omega
    rw [hmod, htn, hvn]
    have hcast : (((width : ℤ) - 1 + 1 : ℤ) : ℚ) = (width : ℚ) := by push_cast; ring
    have hcast2 : (((width : ℤ) - 1 : ℤ) : ℚ) = (width : ℚ) - 1 := by push_cast; ring
    have hcast3 : ((⌊v⌋ + 1 : ℤ) : ℚ) = (⌊v⌋ : ℚ) + 1 := by push_cast; ring
    rw [hcast, hcast2, hcast3, Int.toNat_zero]

/-- Witness for C5 at a concrete 2x3 image and the seam pixel (3/2, 1/2). -/
theorem C5_getRGB_domain_wrap_witness :
    ((1 : ℕ) ≤ 2 ∧ (2 : ℚ) - 1 ≤ 3/2 ∧ (3 : ℚ)/2 < 2 ∧ (0 : ℚ) ≤ 1/2 ∧
      (1 : ℚ)/2 < (3 : ℚ) - 1) ∧
    getRGB 2 3 (fun r c => ⟨(r : ℚ), (c : ℚ), 0⟩) (3/2) (1/2) ≠ none :=
  ⟨⟨by norm_num, by norm_num, by norm_num, by norm_num, by norm_num⟩,
   fun hnone => by
     have h := (C5_getRGB_domain_wrap 2 3 (fun r c => ⟨(r : ℚ), (c : ℚ), 0⟩) (3/2) (1/2)).2
       (by norm_num) (by norm_num) (by norm_num) (by norm_num) (by norm_num)
     rw [h] at hnone
     exact Option.noConfusion hnone⟩

/-! ## C3: SetRanges percentile positions -/

/-- C3: SetRanges does NOT take the 5th and 95th percentiles: on 100 points
with x-coordinates 0..99 (standard axes) the code reads the sorted histogram
at positions size*1/100 = 1 and size*99/100 = 99, i.e. the 1st and 99th
percentiles (values 1 and 99, range [1-4.9, 99+4.9] = [-3.9, 103.9]),
although the code's own comment says "Take the 5 and 95 percentiles" (values
5 and 95, which would give [0.5, 99.5]).  The 5-percent margin itself
matches the claim. -/
theorem C3_percentile_eval :
    (setRanges
      [⟨⟨0,0,0⟩, (List.range 100).map (fun i : ℕ => ⟨⟨(i : ℚ), 0, 0⟩, ⟨0,0,0⟩, 1⟩)⟩] 50
      ⟨fun a => if a = 0 then ⟨1,0,0⟩ else if a = 1 then ⟨0,1,0⟩ else ⟨0,0,1⟩,
       fun _ => (0, 0), 0, fun _ => 0⟩).ranges 0 = (-(39/10), 1039/10) ∧
    ((-(39/10) : ℚ), (1039/10 : ℚ)) ≠ ((1/2 : ℚ), (199/2 : ℚ)) := by
  constructor
  · have hhist : axisHistogram
        [⟨⟨0,0,0⟩, (List.range 100).map (fun i : ℕ => ⟨⟨(i : ℚ), 0, 0⟩, ⟨0,0,0⟩, 1⟩)⟩]
        ⟨fun a => if a = 0 then ⟨1,0,0⟩ else if a = 1 then ⟨0,1,0⟩ else ⟨0,0,1⟩,
         fun _ => (0, 0), 0, fun _ => 0⟩ 0
        = (List.range 100).map (fun i : ℕ => (i : ℚ)) := by
      simp only [axisHistogram, List.flatMap_cons, List.flatMap_nil, List.append_nil,
        List.map_map]
      exact List.map_congr_left (fun i _ => by simp [dot3])
    have hsorted : ((List.range 100).map (fun i : ℕ => (i : ℚ))).Sorted (· ≤ ·) := by
      refine List.pairwise_map.mpr ?_
      exact (List.pairwise_lt_range 100).imp (fun hab => by exact_mod_cast Nat.le_of_lt hab)
    have hms : ((List.range 100).map (fun i : ℕ => (i : ℚ))).mergeSort (fun a b => a ≤ b)
        = (List.range 100).map (fun i : ℕ => (i : ℚ)) :=
      List.mergeSort_eq_self hsorted
    simp only [setRanges]
    rw [hhist]
    simp only [axisRange, hms, List.length_map, List.length_range]
    norm_num
  · simp only [ne_eq, Prod.mk.injEq, not_and]
    intro h
    norm_num at h

/-! ## C7: Merge quiescence -/

theorem mem_drop_range (n m b : ℕ) : b ∈ (List.range n).drop m ↔ (m ≤ b ∧ b < n) := by
  rw [List.mem_iff_getElem]
  constructor
  · rintro ⟨k, hk, he⟩
    rw [List.getElem_drop, List.getElem_range] at he
    simp only [List.length_drop, List.length_range] at hk
    omega
  · rintro ⟨h1, h2⟩
    refine ⟨b - m, ?_, ?_⟩
    · simp only [List.length_drop, List.length_range]
      omega
    · rw [List.getElem_drop, List.getElem_range]
      omega

theorem pairsList_mem (n i j : ℕ) : (i, j) ∈ pairsList n ↔ i < j ∧ j < n := by
  simp only [pairsList, List.mem_flatMap, List.mem_map, List.mem_range]
  constructor
  · rintro ⟨a, ha, b, hb, he⟩
    obtain ⟨he1, he2⟩ := Prod.mk.injEq a b i j ▸ he
    subst he1
    subst he2
    rw [mem_drop_range] at hb
    omega
  · rintro ⟨h1, h2⟩
    exact ⟨i, by omega, j, (mem_drop_range n (i + 1) j).mpr ⟨by omega, h2⟩, rfl⟩

theorem findClosest_notlt (d : ℕ → ℕ → WithTop ℚ) (t : WithTop ℚ)
    (L : List (ℕ × ℕ)) (acc : WithTop ℚ × (ℕ × ℕ))
    (hacc : ¬(acc.1 < t)) (hL : ∀ p ∈ L, ¬(d p.1 p.2 < t)) :
    ¬((L.foldl (fun acc p => if d p.1 p.2 < acc.1 then (d p.1 p.2, p) else acc) acc).1 < t) := by
  induction L generalizing acc with
  | nil => exact hacc
  | cons p ps ih =>
    rw [List.foldl_cons]
    refine ih _ ?_ (fun q hq => hL q (List.mem_cons_of_mem p hq))
    by_cases hc : d p.1 p.2 < acc.1
    · rw [if_pos hc]
      exact hL p (List.mem_cons_self p ps)
    · rw [if_neg hc]
      exact hacc

theorem findClosest_spec (d : ℕ → ℕ → WithTop ℚ) (S : List (ℕ × ℕ))
    (L : List (ℕ × ℕ)) (acc : WithTop ℚ × (ℕ × ℕ))
    (hacc : acc.1 = ⊤ ∨ (acc.2 ∈ S ∧ d acc.2.1 acc.2.2 = acc.1))
    (hL : ∀ p ∈ L, p ∈ S) :
    (L.foldl (fun acc p => if d p.1 p.2 < acc.1 then (d p.1 p.2, p) else acc) acc).1 = ⊤ ∨
      ((L.foldl (fun acc p => if d p.1 p.2 < acc.1 then (d p.1 p.2, p) else acc) acc).2 ∈ S ∧
       d (L.foldl (fun acc p => if d p.1 p.2 < acc.1 then (d p.1 p.2, p) else acc) acc).2.1
         (L.foldl (fun acc p => if d p.1 p.2 < acc.1 then (d p.1 p.2, p) else acc) acc).2.2
         = (L.foldl (fun acc p => if d p.1 p.2 < acc.1 then (d p.1 p.2, p) else acc) acc).1) := by
  induction L generalizing acc with
  | nil => exact hacc
  | cons p ps ih =>
    rw [List.foldl_cons]
    refine ih _ ?_ (fun q hq => hL q (List.mem_cons_of_mem p hq))
    by_cases hc : d p.1 p.2 < acc.1
    · rw [if_pos hc]
      exact Or.inr ⟨hL p (List.mem_cons_self p ps), rfl⟩
    · rw [if_neg hc]
      exact hacc

theorem findClosest_le (d : ℕ → ℕ → WithTop ℚ) (L : List (ℕ × ℕ))
    (acc : WithTop ℚ × (ℕ × ℕ)) :
    (L.foldl (fun acc p => if d p.1 p.2 < acc.1 then (d p.1 p.2, p) else acc) acc).1 ≤ acc.1 ∧
    ∀ p ∈ L, (L.foldl (fun acc p => if d p.1 p.2 < acc.1 then (d p.1 p.2, p) else acc) acc).1
      ≤ d p.1 p.2 := by
  induction L generalizing acc with
  | nil => exact ⟨le_refl _, fun p hp => absurd hp (List.not_mem_nil p)⟩
  | cons p ps ih =>
    rw [List.foldl_cons]
    by_cases hc : d p.1 p.2 < acc.1
    · rw [if_pos hc]
      refine ⟨le_trans (ih _).1 (le_of_lt hc), fun q hq => ?_⟩
      rcases List.mem_cons.mp hq with h | h
      · subst h
        exact (ih _).1
      · exact (ih _).2 q h
    · rw [if_neg hc]
      refine ⟨(ih _).1, fun q hq => ?_⟩
      rcases List.mem_cons.mp hq with h | h
      · subst h
        exact le_trans (ih _).1 (not_lt.mp hc)
      · exact (ih _).2 q h

/-- C7: if no pair of distinct current cluster centers has
VisibilityDistance strictly below the merge threshold, Merge returns false
and leaves centers and clusters unchanged; and Merge returns true exactly
when at least one pair of centers is strictly below the threshold (so a
further Merge call after quiescence performs no change). -/
theorem C7_merge_quiescent (wv : ℕ → List (ℕ × ℚ)) (θ : ℚ)
    (centers : List ℕ) (clusters : List (List ℕ)) :
    ((∀ j < centers.length, ∀ i < j,
        ¬(visibilityDistance (wv (centers.getD i 0)) (wv (centers.getD j 0)) < θ)) →
      mergeFn wv θ centers clusters = (false, centers, clusters)) ∧
    ((mergeFn wv θ centers clusters).1 = true ↔
      ∃ j < centers.length, ∃ i < j,
        visibilityDistance (wv (centers.getD i 0)) (wv (centers.getD j 0)) < θ) := by
  have hd0 : ∀ i j : ℕ, i < j → j < centers.length →
      distMatrix wv centers i j
        = ((visibilityDistance (wv (centers.getD i 0)) (wv (centers.getD j 0)) : ℚ) : WithTop ℚ) := by
    intro i j h1 h2
    rw [distMatrix, if_pos ⟨h1, h2⟩]
  constructor
  · intro H
    have hnl : ∀ p ∈ pairsList centers.length,
        ¬(distMatrix wv centers p.1 p.2 < (θ : WithTop ℚ)) := by
      intro p hp
      obtain ⟨h1, h2⟩ := (pairsList_mem centers.length p.1 p.2).mp hp
      rw [hd0 p.1 p.2 h1 h2, WithTop.coe_lt_coe]
      exact H p.2 h2 p.1 h1
    have hmin : ¬((findClosest centers.length (distMatrix wv centers)).1 < (θ : WithTop ℚ)) :=
      findClosest_notlt (distMatrix wv centers) (θ : WithTop ℚ) (pairsList centers.length)
        (⊤, (0, 0)) (by simp) hnl
    have hloop : mergeLoop θ (centers.length * centers.length + 1) centers.length
        (distMatrix wv centers) = [] := by
      simp only [mergeLoop]
      rw [if_neg hmin]
    simp [mergeFn, hloop]
  · constructor
    · intro htrue
      by_cases hne : mergeLoop θ (centers.length * centers.length + 1) centers.length
          (distMatrix wv centers) = []
      · rw [mergeFn] at htrue
        simp only [hne, List.isEmpty_nil, if_true] at htrue
        exact absurd htrue (by simp)
      · have hc : (findClosest centers.length (distMatrix wv centers)).1 < (θ : WithTop ℚ) := by
          by_contra hnc
          apply hne
          simp only [mergeLoop]
          rw [if_neg hnc]
        rcases findClosest_spec (distMatrix wv centers) (pairsList centers.length)
            (pairsList centers.length) (⊤, (0, 0)) (Or.inl rfl) (fun p hp => hp) with h | ⟨hmem, heq⟩
        · rw [findClosest] at hc
          rw [h] at hc
          exact absurd hc (by simp)
        · rw [findClosest] at hc
          rw [← heq] at hc
          obtain ⟨h1, h2⟩ := (pairsList_mem centers.length _ _).mp hmem
          rw [hd0 _ _ h1 h2, WithTop.coe_lt_coe] at hc
          exact ⟨_, h2, _, h1, hc⟩
    · rintro ⟨j, hj, i, hij, hd⟩
      have hle := (findClosest_le (distMatrix wv centers) (pairsList centers.length)
        (⊤, (0, 0))).2 (i, j) ((pairsList_mem centers.length i j).mpr ⟨hij, hj⟩)
      have hc : (findClosest centers.length (distMatrix wv centers)).1 < (θ : WithTop ℚ) := by
        rw [findClosest]
        refine lt_of_le_of_lt hle ?_
        rw [hd0 i j hij hj]
        exact WithTop.coe_lt_coe.mpr hd
      have hloop : mergeLoop θ (centers.length * centers.length + 1) centers.length
          (distMatrix wv centers)
          = (findClosest centers.length (distMatrix wv centers)).2 ::
            mergeLoop θ (centers.length * centers.length) centers.length
              (invalidate (distMatrix wv centers)
                (findClosest centers.length (distMatrix wv centers)).2) := by
        simp only [mergeLoop]
        rw [if_pos hc]
      rw [mergeFn]
      simp only [hloop, List.isEmpty_cons, if_false, Bool.false_eq_true]

/-- Witness for C7: two centers whose signatures have disjoint support
(distance 1, not below the threshold 1/2), so Merge changes nothing. -/
theorem C7_merge_quiescent_witness :
    (∀ j < ([0, 1] : List ℕ).length, ∀ i < j,
      ¬(visibilityDistance
          ((fun k => if k = 0 then [(0, (1:ℚ))] else [(1, (1:ℚ))]) (([0, 1] : List ℕ).getD i 0))
          ((fun k => if k = 0 then [(0, (1:ℚ))] else [(1, (1:ℚ))]) (([0, 1] : List ℕ).getD j 0))
        < 1/2)) ∧
    mergeFn (fun k => if k = 0 then [(0, (1:ℚ))] else [(1, (1:ℚ))]) (1/2) [0, 1] [[0], [1]]
      = (false, [0, 1], [[0], [1]]) := by
  have H : ∀ j < ([0, 1] : List ℕ).length, ∀ i < j,
      ¬(visibilityDistance
          ((fun k => if k = 0 then [(0, (1:ℚ))] else [(1, (1:ℚ))]) (([0, 1] : List ℕ).getD i 0))
          ((fun k => if k = 0 then [(0, (1:ℚ))] else [(1, (1:ℚ))]) (([0, 1] : List ℕ).getD j 0))
        < 1/2) := by
    intro j hj i hij
    simp only [List.length_cons, List.length_nil] at hj
    interval_cases j
    · omega
    · interval_cases i
      simp only [List.getD_cons_zero, List.getD_cons_succ]
      norm_num [visibilityDistance, visAux]
  exact ⟨H, (C7_merge_quiescent _ _ _ _).1 H⟩

/-! ## C10: BlurField zero-denominator branch is unreachable -/

/-- C10: for every mask and field and every non-negative sigma, BlurField
never takes the fatal zero-denominator branch: each processed cell is inside
the mask, its own kernel tap at offset (0,0) has weight exp(0) = 1 and is
always accumulated, so every per-cell denominator is at least 1. -/
theorem C10_blurField_total (width height : ℕ) (mask : ℕ → Bool) (σ : ℝ)
    (field : ℕ → ℝ) (hσ : 0 ≤ σ) :
    (blurField width height mask σ field).isSome = true := by
  rw [blurField]
  split_ifs with h
  · exfalso
    obtain ⟨y, hy, x, hx, hm, hd⟩ := h
    have hhalf : 0 ≤ blurHalfSize σ := by
      rw [blurHalfSize]
      exact Int.ceil_nonneg (by linarith)
    have hidx : (((y : ℤ) + 0) * width + ((x : ℤ) + 0)) = ((y * width + x : ℕ) : ℤ) := by
      push_cast
      ring
    have hmem : ((0 : ℤ), (0 : ℤ)) ∈ blurTaps width height mask (blurHalfSize σ) x y := by
      rw [blurTaps]
      refine Finset.mem_filter.mpr ⟨Finset.mem_product.mpr ⟨?_, ?_⟩, ?_, ?_, ?_, ?_, ?_⟩
      · rw [Finset.mem_Icc]
        omega
      · rw [Finset.mem_Icc]
        omega
      · omega
      · have : (y : ℤ) < height := by exact_mod_cast hy
        omega
      · omega
      · have : (x : ℤ) < width := by exact_mod_cast hx
        omega
      · rw [hidx, Int.toNat_natCast]
        exact hm
    have hterm : kernelVal σ 0 0 = 1 := by
      rw [kernelVal]
      norm_num
    have hle : ∀ ij ∈ blurTaps width height mask (blurHalfSize σ) x y,
        (0 : ℝ) ≤ (fun ij : ℤ × ℤ => kernelVal σ ij.1 ij.2) ij := by
      intro i _
      simp only [kernelVal]
      exact le_of_lt (Real.exp_pos _)
    have key : (fun ij : ℤ × ℤ => kernelVal σ ij.1 ij.2) (0, 0)
        ≤ ∑ ij ∈ blurTaps width height mask (blurHalfSize σ) x y, kernelVal σ ij.1 ij.2 :=
      Finset.single_le_sum hle hmem
    have hsum : (1 : ℝ) ≤ blurDenom width height mask σ x y := by
      rw [blurDenom]
      calc (1 : ℝ) = kernelVal σ 0 0 := hterm.symm
        _ ≤ _ := key
    rw [hd] at hsum
    linarith
  · rfl

/-- Witness for C10 on a 1x1 all-true mask with sigma 1. -/
theorem C10_blurField_total_witness :
    (0 : ℝ) ≤ 1 ∧
    (blurField 1 1 (fun _ => true) 1 (fun _ => 0)).isSome = true :=
  ⟨zero_le_one, C10_blurField_total 1 1 (fun _ => true) 1 (fun _ => 0) zero_le_one⟩

/-! ## C4: SetDistanceToBoundary helper lemmas -/

theorem stepCost_one_le (i j : ℤ) : (1 : Cost) ≤ stepCost i j := by
  rw [stepCost]
  split_ifs
  · decide
  · decide

theorem stepCost_nonneg (i j : ℤ) : (0 : Cost) ≤ stepCost i j :=
  le_trans (by decide) (stepCost_one_le i j)

theorem offsets8_adj : ∀ off ∈ offsets8,
    off.1.natAbs ≤ 1 ∧ off.2.natAbs ≤ 1 ∧ ¬(off.1 = 0 ∧ off.2 = 0) := by
  decide

theorem mem_offsets8 (dx dy : ℤ) (hdx : dx.natAbs ≤ 1) (hdy : dy.natAbs ≤ 1)
    (hne : ¬(dx = 0 ∧ dy = 0)) : (dx, dy) ∈ offsets8 := by
  have h1 : dx = -1 ∨ dx = 0 ∨ dx = 1 := by omega
  have h2 : dy = -1 ∨ dy = 0 ∨ dy = 1 := by omega
  rcases h1 with h | h | h <;> rcases h2 with h' | h' | h' <;> subst h <;> subst h' <;>
    simp_all [offsets8]

theorem cellIdx_off (g : DGrid) (x y dx dy : ℤ) :
    cellIdx g (x + dx) (y + dy) = cellIdx g x y + dy * (g.width : ℤ) + dx := by
  rw [cellIdx, cellIdx]
  ring

theorem cellIdx_inj (g : DGrid) (x y x' y' : ℤ)
    (hx0 : 0 ≤ x) (hx1 : x < (g.width : ℤ)) (hy0 : 0 ≤ y) (hy1 : y < (g.height : ℤ))
    (hx0' : 0 ≤ x') (hx1' : x' < (g.width : ℤ)) (hy0' : 0 ≤ y') (hy1' : y' < (g.height : ℤ))
    (h : cellIdx g x y = cellIdx g x' y') : x = x' ∧ y = y' := by
  rw [cellIdx, cellIdx] at h
  have hw : 0 < (g.width : ℤ) := by omega
  have hxx : x - x' = (y' - y) * (g.width : ℤ) := by linarith
  by_cases hyy : y = y'
  · subst hyy
    constructor
    · linarith [hxx]
    · rfl
  · exfalso
    have h1 : 1 ≤ (y' - y) ∨ (y' - y) ≤ -1 := by omega
    rcases h1 with h1 | h1
    · have : (g.width : ℤ) ≤ (y' - y) * (g.width : ℤ) := le_mul_of_one_le_left hw.le h1
      omega
    · have : (y' - y) * (g.width : ℤ) ≤ -(g.width : ℤ) := by nlinarith
      omega

theorem validPath_nonneg (g : DGrid) (x y : ℤ) (c : Cost) (h : ValidPath g x y c) :
    (0 : Cost) ≤ c := by
  induction h with
  | src _ _ _ => exact le_refl 0
  | step _ _ dx dy c _ _ _ _ _ ih =>
    exact add_nonneg ih (stepCost_nonneg dx dy)

theorem validPath_zero (g : DGrid) (x y : ℤ) (c : Cost) (h : ValidPath g x y c)
    (hc : c = 0) : isSourceScan g x y = true := by
  cases h with
  | src _ _ hs => exact hs
  | step x' y' dx dy c' hp hdx hdy hne hm =>
    exfalso
    have h1 := validPath_nonneg g x' y' c' hp
    have h2 := stepCost_one_le dx dy
    have : (1 : Cost) ≤ c' + stepCost dx dy := le_add_of_nonneg_of_le h1 h2
    rw [hc] at this
    exact absurd this (by decide)

theorem isSourceScan_mask (g : DGrid) (x y : ℤ) (h : isSourceScan g x y = true) :
    maskAt g (cellIdx g x y) = true := by
  rw [isSourceScan] at h
  simp only [Bool.and_eq_true] at h
  exact h.1.2

theorem isSourceScan_bounds (g : DGrid) (x y : ℤ) (h : isSourceScan g x y = true) :
    1 ≤ x ∧ x ≤ (g.width : ℤ) - 2 ∧ 1 ≤ y ∧ y ≤ (g.height : ℤ) - 2 := by
  rw [isSourceScan] at h
  simp only [Bool.and_eq_true, decide_eq_true_eq] at h
  exact ⟨h.1.1.1.1, h.1.1.1.2, h.1.1.2.1, h.1.1.2.2⟩

theorem validPath_mask (g : DGrid) (x y : ℤ) (c : Cost) (h : ValidPath g x y c) :
    maskAt g (cellIdx g x y) = true := by
  cases h with
  | src _ _ hs => exact isSourceScan_mask g x y hs
  | step _ _ _ _ _ _ _ _ _ hm => exact hm

theorem validPath_interior (g : DGrid) (hIM : InteriorMask g) (x y : ℤ) (c : Cost)
    (h : ValidPath g x y c) :
    1 ≤ x ∧ x ≤ (g.width : ℤ) - 2 ∧ 1 ≤ y ∧ y ≤ (g.height : ℤ) - 2 := by
  induction h with
  | src x' y' hs => exact isSourceScan_bounds g x' y' hs
  | step x' y' dx dy c' hp hdx hdy hne hm ih =>
    have h1 : 0 ≤ x' + dx := by omega
    have h2 : x' + dx < (g.width : ℤ) := by omega
    have h3 : 0 ≤ y' + dy := by omega
    have h4 : y' + dy < (g.height : ℤ) := by omega
    exact hIM (x' + dx) (y' + dy) h1 h2 h3 h4 hm

theorem relaxOne_dist_le (g : DGrid) (s : Cost) (x y : ℤ) (st : DState) (off : ℤ × ℤ)
    (i : ℤ) : (relaxOne g s x y st off).dist i ≤ st.dist i := by
  simp only [relaxOne]
  split_ifs with h1 h2
  · show (if i = cellIdx g (x + off.1) (y + off.2)
        then ((s + stepCost off.1 off.2 : Cost) : WithTop Cost) else st.dist i) ≤ st.dist i
    by_cases hi : i = cellIdx g (x + off.1) (y + off.2)
    · rw [if_pos hi, hi]
      exact h2.le
    · rw [if_neg hi]
  · exact le_refl _
  · exact le_refl _

theorem relaxList_dist_le (g : DGrid) (s : Cost) (x y : ℤ) (L : List (ℤ × ℤ))
    (st : DState) (i : ℤ) :
    (L.foldl (relaxOne g s x y) st).dist i ≤ st.dist i := by
  induction L generalizing st with
  | nil => exact le_refl _
  | cons off L ih =>
    rw [List.foldl_cons]
    exact le_trans (ih (relaxOne g s x y st off)) (relaxOne_dist_le g s x y st off i)

theorem relaxOne_queue_mono (g : DGrid) (s : Cost) (x y : ℤ) (st : DState)
    (off : ℤ × ℤ) (e : Cost × ℤ × ℤ) (he : e ∈ st.queue) :
    e ∈ (relaxOne g s x y st off).queue := by
  simp only [relaxOne]
  split_ifs with h1 h2
  · exact List.mem_cons_of_mem _ he
  · exact he
  · exact he

theorem relaxList_queue_mono (g : DGrid) (s : Cost) (x y : ℤ) (L : List (ℤ × ℤ))
    (st : DState) (e : Cost × ℤ × ℤ) (he : e ∈ st.queue) :
    e ∈ (L.foldl (relaxOne g s x y) st).queue := by
  induction L generalizing st with
  | nil => exact he
  | cons off L ih =>
    rw [List.foldl_cons]
    exact ih (relaxOne g s x y st off) (relaxOne_queue_mono g s x y st off e he)

theorem relaxOne_queue_cases (g : DGrid) (s : Cost) (x y : ℤ) (st : DState)
    (off : ℤ × ℤ) (e : Cost × ℤ × ℤ) (he : e ∈ (relaxOne g s x y st off).queue) :
    e ∈ st.queue ∨
      (e = (s + stepCost off.1 off.2, x + off.1, y + off.2) ∧
       maskAt g (cellIdx g (x + off.1) (y + off.2)) = true) := by
  simp only [relaxOne] at he
  split_ifs at he with h1 h2
  · rcases List.mem_cons.mp he with h | h
    · exact Or.inr ⟨h, h1⟩
    · exact Or.inl h
  · exact Or.inl he
  · exact Or.inl he

theorem relaxOne_dist_cases (g : DGrid) (s : Cost) (x y : ℤ) (st : DState)
    (off : ℤ × ℤ) (i : ℤ) :
    (relaxOne g s x y st off).dist i = st.dist i ∨
      (maskAt g i = true ∧ i = cellIdx g (x + off.1) (y + off.2) ∧
       (relaxOne g s x y st off).dist i
         = ((s + stepCost off.1 off.2 : Cost) : WithTop Cost) ∧
       (s + stepCost off.1 off.2, x + off.1, y + off.2) ∈ (relaxOne g s x y st off).queue) := by
  simp only [relaxOne]
  split_ifs with h1 h2
  · by_cases hi : i = cellIdx g (x + off.1) (y + off.2)
    · refine Or.inr ⟨hi ▸ h1, hi, ?_, ?_⟩
      · show (if i = cellIdx g (x + off.1) (y + off.2)
            then ((s + stepCost off.1 off.2 : Cost) : WithTop Cost) else st.dist i)
          = ((s + stepCost off.1 off.2 : Cost) : WithTop Cost)
        rw [if_pos hi]
      · exact List.mem_cons_self _ _
    · refine Or.inl ?_
      show (if i = cellIdx g (x + off.1) (y + off.2)
          then ((s + stepCost off.1 off.2 : Cost) : WithTop Cost) else st.dist i) = st.dist i
      rw [if_neg hi]
  · exact Or.inl rfl
  · exact Or.inl rfl

theorem relaxList_dist_cases (g : DGrid) (s : Cost) (x y : ℤ) (L : List (ℤ × ℤ))
    (hL : ∀ off ∈ L, off ∈ offsets8) (st : DState) (hpath : ValidPath g x y s) (i : ℤ) :
    (L.foldl (relaxOne g s x y) st).dist i = st.dist i ∨
      ∃ e ∈ (L.foldl (relaxOne g s x y) st).queue,
        cellIdx g e.2.1 e.2.2 = i ∧
        (L.foldl (relaxOne g s x y) st).dist i = (e.1 : WithTop Cost) ∧
        ValidPath g e.2.1 e.2.2 e.1 ∧ maskAt g i = true := by
  induction L generalizing st with
  | nil => exact Or.inl rfl
  | cons off L ih =>
    rw [List.foldl_cons]
    rcases ih (fun o ho => hL o (List.mem_cons_of_mem off ho)) (relaxOne g s x y st off)
      with h | h
    · rcases relaxOne_dist_cases g s x y st off i with h' | ⟨hm, hi, hd, hq⟩
      · exact Or.inl (h.trans h')
      · refine Or.inr ⟨(s + stepCost off.1 off.2, x + off.1, y + off.2), ?_, ?_, ?_, ?_, hm⟩
        · exact relaxList_queue_mono g s x y L _ _ hq
        · exact hi.symm
        · rw [h, hd]
        · obtain ⟨hdx, hdy, hne⟩ := offsets8_adj off (hL off (List.mem_cons_self off L))
          exact ValidPath.step x y off.1 off.2 s hpath hdx hdy hne (hi ▸ hm)
    · exact Or.inr h

theorem relaxList_qPath (g : DGrid) (s : Cost) (x y : ℤ) (L : List (ℤ × ℤ))
    (hL : ∀ off ∈ L, off ∈ offsets8) (st : DState) (hpath : ValidPath g x y s)
    (hq : ∀ e ∈ st.queue, ValidPath g e.2.1 e.2.2 e.1) :
    ∀ e ∈ (L.foldl (relaxOne g s x y) st).queue, ValidPath g e.2.1 e.2.2 e.1 := by
  induction L generalizing st with
  | nil => exact hq
  | cons off L ih =>
    rw [List.foldl_cons]
    refine ih (fun o ho => hL o (List.mem_cons_of_mem off ho)) _ ?_
    intro e he
    rcases relaxOne_queue_cases g s x y st off e he with h | ⟨he', hm⟩
    · exact hq e h
    · subst he'
      obtain ⟨hdx, hdy, hne⟩ := offsets8_adj off (hL off (List.mem_cons_self off L))
      exact ValidPath.step x y off.1 off.2 s hpath hdx hdy hne hm

theorem relaxOne_processed_self (g : DGrid) (s : Cost) (x y : ℤ) (st : DState)
    (off : ℤ × ℤ) (hm : maskAt g (cellIdx g (x + off.1) (y + off.2)) = true) :
    (relaxOne g s x y st off).dist (cellIdx g (x + off.1) (y + off.2))
      ≤ ((s + stepCost off.1 off.2 : Cost) : WithTop Cost) := by
  simp only [relaxOne]
  split_ifs with h1
  · show (if cellIdx g (x + off.1) (y + off.2) = cellIdx g (x + off.1) (y + off.2)
        then ((s + stepCost off.1 off.2 : Cost) : WithTop Cost)
        else st.dist (cellIdx g (x + off.1) (y + off.2)))
      ≤ ((s + stepCost off.1 off.2 : Cost) : WithTop Cost)
    rw [if_pos rfl]
  · exact not_lt.mp h1

theorem relaxOne_qDist (g : DGrid) (s : Cost) (x y : ℤ) (st : DState) (off : ℤ × ℤ)
    (hq : ∀ e ∈ st.queue, st.dist (cellIdx g e.2.1 e.2.2) ≤ (e.1 : WithTop Cost)) :
    ∀ e ∈ (relaxOne g s x y st off).queue,
      (relaxOne g s x y st off).dist (cellIdx g e.2.1 e.2.2) ≤ (e.1 : WithTop Cost) := by
  intro e he
  rcases relaxOne_queue_cases g s x y st off e he with h | ⟨he', hm⟩
  · exact le_trans (relaxOne_dist_le g s x y st off _) (hq e h)
  · subst he'
    exact relaxOne_processed_self g s x y st off hm

theorem relaxList_qDist (g : DGrid) (s : Cost) (x y : ℤ) (L : List (ℤ × ℤ))
    (st : DState)
    (hq : ∀ e ∈ st.queue, st.dist (cellIdx g e.2.1 e.2.2) ≤ (e.1 : WithTop Cost)) :
    ∀ e ∈ (L.foldl (relaxOne g s x y) st).queue,
      (L.foldl (relaxOne g s x y) st).dist (cellIdx g e.2.1 e.2.2) ≤ (e.1 : WithTop Cost) := by
  induction L generalizing st with
  | nil => exact hq
  | cons off L ih =>
    rw [List.foldl_cons]
    exact ih _ (relaxOne_qDist g s x y st off hq)

theorem relaxList_dMask (g : DGrid) (s : Cost) (x y : ℤ) (L : List (ℤ × ℤ))
    (st : DState) (hd : ∀ i : ℤ, maskAt g i = false → st.dist i = ⊤) :
    ∀ i : ℤ, maskAt g i = false → (L.foldl (relaxOne g s x y) st).dist i = ⊤ := by
  induction L generalizing st with
  | nil => exact hd
  | cons off L ih =>
    rw [List.foldl_cons]
    refine ih _ ?_
    intro i hm
    rcases relaxOne_dist_cases g s x y st off i with h | ⟨hm', _, _, _⟩
    · rw [h]
      exact hd i hm
    · rw [hm'] at hm
      exact absurd hm (by simp)

theorem relaxList_dSrc (g : DGrid) (s : Cost) (x y : ℤ) (L : List (ℤ × ℤ))
    (st : DState) (hs0 : (0 : Cost) ≤ s)
    (hd : ∀ x0 y0 : ℤ, isSourceScan g x0 y0 = true → st.dist (cellIdx g x0 y0) = 0) :
    ∀ x0 y0 : ℤ, isSourceScan g x0 y0 = true →
      (L.foldl (relaxOne g s x y) st).dist (cellIdx g x0 y0) = 0 := by
  induction L generalizing st with
  | nil => exact hd
  | cons off L ih =>
    rw [List.foldl_cons]
    refine ih _ ?_
    intro x0 y0 hsrc
    rcases relaxOne_dist_cases g s x y st off (cellIdx g x0 y0) with h | ⟨_, _, hv, _⟩
    · rw [h]
      exact hd x0 y0 hsrc
    · exfalso
      have hlt : ((s + stepCost off.1 off.2 : Cost) : WithTop Cost)
          < st.dist (cellIdx g x0 y0) := by
        by_contra hnl
        have hle := relaxOne_dist_le g s x y st off (cellIdx g x0 y0)
        rw [hv] at hle
        have := hd x0 y0 hsrc
        rw [this] at hle
        have hpos : (0 : Cost) < s + stepCost off.1 off.2 :=
          lt_of_lt_of_le (by decide : (0 : Cost) < 1)
            (le_add_of_nonneg_of_le hs0 (stepCost_one_le off.1 off.2))
        rw [show ((0 : WithTop Cost)) = ((0 : Cost) : WithTop Cost) from rfl] at hle
        exact absurd (WithTop.coe_le_coe.mp hle) (not_le.mpr hpos)
      have := hd x0 y0 hsrc
      rw [this] at hlt
      have hpos : (0 : Cost) < s + stepCost off.1 off.2 :=
        lt_of_lt_of_le (by decide : (0 : Cost) < 1)
          (le_add_of_nonneg_of_le hs0 (stepCost_one_le off.1 off.2))
      rw [show ((0 : WithTop Cost)) = ((0 : Cost) : WithTop Cost) from rfl] at hlt
      exact absurd (WithTop.coe_lt_coe.mp hlt) (not_lt.mpr hpos.le)

theorem relaxList_processed (g : DGrid) (s : Cost) (x y : ℤ) (L : List (ℤ × ℤ))
    (st : DState) :
    ∀ off ∈ L, maskAt g (cellIdx g (x + off.1) (y + off.2)) = true →
      (L.foldl (relaxOne g s x y) st).dist (cellIdx g (x + off.1) (y + off.2))
        ≤ ((s + stepCost off.1 off.2 : Cost) : WithTop Cost) := by
  induction L generalizing st with
  | nil => intro off hoff; exact absurd hoff (List.not_mem_nil off)
  | cons off0 L ih =>
    intro off hoff hm
    rw [List.foldl_cons]
    rcases List.mem_cons.mp hoff with h | h
    · subst h
      exact le_trans (relaxList_dist_le g s x y L _ _)
        (relaxOne_processed_self g s x y st off hm)
    · exact ih _ off h hm

theorem mem_removeMiddle {α : Type} (pre post : List α) (a b : α)
    (h : a ∈ pre ++ b :: post) (hne : a ≠ b) : a ∈ pre ++ post := by
  rcases List.mem_append.mp h with h' | h'
  · exact List.mem_append_left _ h'
  · rcases List.mem_cons.mp h' with h'' | h''
    · exact absurd h'' hne
    · exact List.mem_append_right _ h''

theorem DStep_preserves (g : DGrid) (stA stB : DState) (hInv : DInv g stA)
    (hstep : DStep g stA stB) : DInv g stB := by
  cases hstep with
  | pop s x y pre post st2 h =>
    show DInv g (offsets8.foldl (relaxOne g s x y) ⟨stA.dist, pre ++ post⟩)
    set st0 : DState := (⟨stA.dist, pre ++ post⟩ : DState) with hst0
    have hemem : (s, x, y) ∈ stA.queue := by
      rw [h]
      exact List.mem_append_right _ (List.mem_cons_self _ _)
    have hpath : ValidPath g x y s := hInv.qPath (s, x, y) hemem
    have hs0 : (0 : Cost) ≤ s := validPath_nonneg g x y s hpath
    have hq0 : ∀ e ∈ st0.queue, e ∈ stA.queue := by
      intro e he
      rw [h]
      rcases List.mem_append.mp he with h' | h'
      · exact List.mem_append_left _ h'
      · exact List.mem_append_right _ (List.mem_cons_of_mem _ h')
    refine DInv.mk ?_ ?_ ?_ ?_ ?_ ?_
    · exact relaxList_dMask g s x y offsets8 st0 hInv.dMask
    · exact relaxList_dSrc g s x y offsets8 st0 hs0 hInv.dSrc
    · intro i hne
      rcases relaxList_dist_cases g s x y offsets8 (fun o ho => ho) st0 hpath i
        with hsame | ⟨e, hem, hci, hdv, hvp, _⟩
      · rw [hsame] at hne ⊢
        exact hInv.dPath i hne
      · exact ⟨e.2.1, e.2.2, e.1, hci.symm, hvp, hdv⟩
    · exact relaxList_qPath g s x y offsets8 (fun o ho => ho) st0 hpath
        (fun e he => hInv.qPath e (hq0 e he))
    · exact relaxList_qDist g s x y offsets8 st0 (fun e he => hInv.qDist e (hq0 e he))
    · intro i hm hne
      rcases relaxList_dist_cases g s x y offsets8 (fun o ho => ho) st0 hpath i
        with hsame | ⟨e, hem, hci, hdv, _, _⟩
      · have hne' : stA.dist i ≠ ⊤ := by
          rw [hsame] at hne
          exact hne
        rcases hInv.relaxed i hm hne' with ⟨e, heq, hci, hle⟩ | hrel
        · by_cases hcase : e ∈ st0.queue
          · exact Or.inl ⟨e, relaxList_queue_mono g s x y offsets8 st0 e hcase, hci, by
              rw [hsame]
              exact hle⟩
          · have he2 : e = (s, x, y) := by
              rw [h] at heq
              by_contra hne2
              exact hcase (mem_removeMiddle pre post e (s, x, y) heq hne2)
            subst he2
            have hds : stA.dist i = (s : WithTop Cost) :=
              le_antisymm (hci ▸ hInv.qDist (s, x, y) hemem) hle
            refine Or.inr ?_
            intro off hoff hmn
            have hidx : i + off.2 * (g.width : ℤ) + off.1
                = cellIdx g (x + off.1) (y + off.2) := by
              rw [cellIdx_off, hci]
            rw [hidx] at hmn ⊢
            calc (offsets8.foldl (relaxOne g s x y) st0).dist
                  (cellIdx g (x + off.1) (y + off.2))
                ≤ ((s + stepCost off.1 off.2 : Cost) : WithTop Cost) :=
                  relaxList_processed g s x y offsets8 st0 off hoff hmn
              _ = (s : WithTop Cost) + (stepCost off.1 off.2 : Cost) := by
                  rw [WithTop.coe_add]
              _ = (offsets8.foldl (relaxOne g s x y) st0).dist i
                  + (stepCost off.1 off.2 : Cost) := by
                  rw [hsame, hds]
        · refine Or.inr ?_
          intro off hoff hmn
          refine le_trans (relaxList_dist_le g s x y offsets8 st0 _) ?_
          rw [hsame]
          exact hrel off hoff hmn
      · exact Or.inl ⟨e, hem, hci, le_of_eq hdv.symm⟩

theorem mem_sourceCells (g : DGrid) (x y : ℤ) :
    (x, y) ∈ sourceCells g ↔ isSourceScan g x y = true := by
  simp only [sourceCells, List.mem_flatMap, List.mem_filterMap, List.mem_map,
    List.mem_range]
  constructor
  · rintro ⟨y0, ⟨k, hk, hky⟩, x0, ⟨m, hm2, hmx⟩, hif⟩
    by_cases hs : isSourceScan g x0 y0 = true
    · rw [if_pos hs] at hif
      have hxy := Option.some.inj hif
      rw [Prod.ext_iff] at hxy
      obtain ⟨h1, h2⟩ := hxy
      simp only [] at h1 h2
      rw [← h1, ← h2]
      exact hs
    · rw [if_neg hs] at hif
      exact absurd hif (by simp)
  · intro hs
    obtain ⟨hx1, hx2, hy1, hy2⟩ := isSourceScan_bounds g x y hs
    refine ⟨y, ⟨(y - 1).toNat, ?_, ?_⟩, x, ⟨(x - 1).toNat, ?_, ?_⟩, ?_⟩
    · omega
    · omega
    · omega
    · omega
    · rw [if_pos hs]

theorem isSourceScan_iff_spec (g : DGrid) (x y : ℤ) :
    isSourceScan g x y = true ↔ isSourceSpec g x y := by
  have e1 : cellIdx g x y - 1 = cellIdx g (x - 1) y := by
    rw [cellIdx, cellIdx]; ring
  have e2 : cellIdx g x y + 1 = cellIdx g (x + 1) y := by
    rw [cellIdx, cellIdx]; ring
  have e3 : cellIdx g x y - (g.width : ℤ) = cellIdx g x (y - 1) := by
    rw [cellIdx, cellIdx]; ring
  have e4 : cellIdx g x y + (g.width : ℤ) = cellIdx g x (y + 1) := by
    rw [cellIdx, cellIdx]; ring
  constructor
  · intro hs
    rw [isSourceScan] at hs
    simp only [Bool.and_eq_true, Bool.or_eq_true, Bool.not_eq_true',
      decide_eq_true_eq] at hs
    obtain ⟨⟨⟨⟨b1, b2⟩, b3, b4⟩, hm⟩, hor⟩ := hs
    refine ⟨hm, ⟨by omega, by omega, by omega, by omega⟩, ?_⟩
    rcases hor with ((h | h) | h) | h
    · rw [e1] at h
      exact Or.inl h
    · rw [e2] at h
      exact Or.inr (Or.inl h)
    · rw [e3] at h
      exact Or.inr (Or.inr (Or.inl h))
    · rw [e4] at h
      exact Or.inr (Or.inr (Or.inr h))
  · rintro ⟨hm, ⟨b1, b2, b3, b4⟩, hn⟩
    rw [isSourceScan]
    simp only [Bool.and_eq_true, Bool.or_eq_true, Bool.not_eq_true', decide_eq_true_eq]
    refine ⟨⟨⟨⟨by omega, by omega⟩, by omega, by omega⟩, hm⟩, ?_⟩
    rcases hn with h | h | h | h
    · rw [← e1] at h
      exact Or.inl (Or.inl (Or.inl h))
    · rw [← e2] at h
      exact Or.inl (Or.inl (Or.inr h))
    · rw [← e3] at h
      exact Or.inl (Or.inr h)
    · rw [← e4] at h
      exact Or.inr h

theorem initDState_dist_source (g : DGrid) (x y : ℤ) (hs : isSourceScan g x y = true) :
    (initDState g).dist (cellIdx g x y) = 0 := by
  show (if (sourceCells g).any (fun c => cellIdx g c.1 c.2 = cellIdx g x y)
      then (0 : WithTop Cost) else ⊤) = 0
  rw [if_pos]
  rw [List.any_eq_true]
  exact ⟨(x, y), (mem_sourceCells g x y).mpr hs, by simp⟩

theorem initDState_dist_cases (g : DGrid) (i : ℤ) :
    (initDState g).dist i = ⊤ ∨
      ∃ x y : ℤ, i = cellIdx g x y ∧ isSourceScan g x y = true ∧
        (initDState g).dist i = 0 := by
  show (if (sourceCells g).any (fun c => cellIdx g c.1 c.2 = i)
      then (0 : WithTop Cost) else ⊤) = ⊤ ∨ _
  by_cases ha : (sourceCells g).any (fun c => cellIdx g c.1 c.2 = i) = true
  · obtain ⟨c, hc, he⟩ := List.any_eq_true.mp ha
    refine Or.inr ⟨c.1, c.2, (of_decide_eq_true he).symm, (mem_sourceCells g c.1 c.2).mp hc, ?_⟩
    show (if (sourceCells g).any (fun c => cellIdx g c.1 c.2 = i)
        then (0 : WithTop Cost) else ⊤) = 0
    rw [if_pos ha]
  · rw [if_neg ha]
    exact Or.inl rfl

theorem initDState_DInv (g : DGrid) : DInv g (initDState g) := by
  refine DInv.mk ?_ ?_ ?_ ?_ ?_ ?_
  · intro i hm
    rcases initDState_dist_cases g i with h | ⟨x, y, hi, hs, _⟩
    · exact h
    · exfalso
      have := isSourceScan_mask g x y hs
      rw [← hi] at this
      rw [this] at hm
      exact absurd hm (by simp)
  · intro x y hs
    exact initDState_dist_source g x y hs
  · intro i hne
    rcases initDState_dist_cases g i with h | ⟨x, y, hi, hs, hd⟩
    · exact absurd h hne
    · exact ⟨x, y, 0, hi, ValidPath.src x y hs, by rw [hd]; rfl⟩
  · intro e he
    obtain ⟨c, hc, he2⟩ := List.mem_map.mp he
    rw [← he2]
    exact ValidPath.src c.1 c.2 ((mem_sourceCells g c.1 c.2).mp hc)
  · intro e he
    obtain ⟨c, hc, he2⟩ := List.mem_map.mp he
    rw [← he2]
    show (initDState g).dist (cellIdx g c.1 c.2) ≤ ((0 : Cost) : WithTop Cost)
    rw [initDState_dist_source g c.1 c.2 ((mem_sourceCells g c.1 c.2).mp hc)]
    exact le_of_eq rfl
  · intro i hm hne
    rcases initDState_dist_cases g i with h | ⟨x, y, hi, hs, hd⟩
    · exact absurd h hne
    · refine Or.inl ⟨(0, x, y), ?_, ?_, ?_⟩
      · exact List.mem_map.mpr ⟨(x, y), (mem_sourceCells g x y).mpr hs, rfl⟩
      · exact hi.symm
      · rw [hd]
        exact le_of_eq rfl

theorem run_DInv (g : DGrid) (st : DState)
    (hrun : Relation.ReflTransGen (DStep g) (initDState g) st) : DInv g st := by
  induction hrun with
  | refl => exact initDState_DInv g
  | tail hab hbc ih => exact DStep_preserves g _ _ ih hbc

theorem final_dist_le_path (g : DGrid) (st : DState) (hInv : DInv g st)
    (hq : st.queue = []) (x y : ℤ) (c : Cost) (hp : ValidPath g x y c) :
    st.dist (cellIdx g x y) ≤ (c : WithTop Cost) := by
  induction hp with
  | src x' y' hs =>
    rw [hInv.dSrc x' y' hs]
    exact le_of_eq rfl
  | step x' y' dx dy c' hp' hdx hdy hne hm ih =>
    have hfin : st.dist (cellIdx g x' y') ≠ ⊤ := by
      intro htop
      rw [htop] at ih
      exact absurd (top_le_iff.mp ih) (WithTop.coe_ne_top)
    have hmcur := validPath_mask g x' y' c' hp'
    rcases hInv.relaxed _ hmcur hfin with ⟨e, he, _, _⟩ | hrel
    · rw [hq] at he
      exact absurd he (List.not_mem_nil e)
    · have hoff : (dx, dy) ∈ offsets8 := mem_offsets8 dx dy hdx hdy hne
      have hidx : cellIdx g x' y' + dy * (g.width : ℤ) + dx = cellIdx g (x' + dx) (y' + dy) :=
        (cellIdx_off g x' y' dx dy).symm
      have hmn : maskAt g (cellIdx g x' y' + dy * (g.width : ℤ) + dx) = true := by
        rw [hidx]
        exact hm
      have h2 := hrel (dx, dy) hoff hmn
      rw [hidx] at h2
      calc st.dist (cellIdx g (x' + dx) (y' + dy))
          ≤ st.dist (cellIdx g x' y') + ((stepCost dx dy : Cost) : WithTop Cost) := h2
        _ ≤ (c' : WithTop Cost) + ((stepCost dx dy : Cost) : WithTop Cost) :=
            add_le_add_right ih _
        _ = ((c' + stepCost dx dy : Cost) : WithTop Cost) := (WithTop.coe_add _ _).symm

/-- C4: for a mask whose true cells all lie strictly inside the border (the
documented invariant of SetMask), every terminating execution of the
SetDistanceToBoundary wavefront (any pop order, which covers the C++
priority-queue order) ends with: distance 0 exactly on the claim's source
cells (mask-true non-border cells with a false 4-neighbor); on every
mask-true cell reachable by an 8-connected path of mask-true cells from a
source, the least path cost, with axis steps costing 1 and diagonal steps
costing sqrt(2); and the float-max sentinel on every cell outside the mask
or unreachable. -/
theorem C4_setDistanceToBoundary (g : DGrid) (hIM : InteriorMask g) (st : DState)
    (hrun : Relation.ReflTransGen (DStep g) (initDState g) st) (hq : st.queue = []) :
    (∀ x y : ℤ, 0 ≤ x → x < (g.width : ℤ) → 0 ≤ y → y < (g.height : ℤ) →
      (st.dist (cellIdx g x y) = 0 ↔ isSourceSpec g x y)) ∧
    (∀ x y : ℤ, 0 ≤ x → x < (g.width : ℤ) → 0 ≤ y → y < (g.height : ℤ) →
      maskAt g (cellIdx g x y) = true → (∃ c : Cost, ValidPath g x y c) →
      ∃ m : Cost, IsLeast {c : Cost | ValidPath g x y c} m ∧
        st.dist (cellIdx g x y) = (m : WithTop Cost)) ∧
    (∀ x y : ℤ, 0 ≤ x → x < (g.width : ℤ) → 0 ≤ y → y < (g.height : ℤ) →
      (maskAt g (cellIdx g x y) = false ∨ ¬ ∃ c : Cost, ValidPath g x y c) →
      st.dist (cellIdx g x y) = ⊤) := by
  have hInv := run_DInv g st hrun
  refine ⟨?_, ?_, ?_⟩
  · intro x y hx0 hx1 hy0 hy1
    constructor
    · intro h0
      have hne : st.dist (cellIdx g x y) ≠ ⊤ := by
        rw [h0]
        simp
      obtain ⟨x', y', c, hi, hvp, hd⟩ := hInv.dPath _ hne
      have hc0 : c = 0 := by
        rw [h0] at hd
        exact_mod_cast hd.symm
      have hsc := validPath_zero g x' y' c hvp hc0
      obtain ⟨j1, j2, j3, j4⟩ := isSourceScan_bounds g x' y' hsc
      obtain ⟨hxx, hyy⟩ := cellIdx_inj g x y x' y' hx0 hx1 hy0 hy1
        (by omega) (by omega) (by omega) (by omega) hi
      rw [← hxx, ← hyy] at hsc
      exact (isSourceScan_iff_spec g x y).mp hsc
    · intro hspec
      exact hInv.dSrc x y ((isSourceScan_iff_spec g x y).mpr hspec)
  · rintro x y hx0 hx1 hy0 hy1 hm ⟨c, hc⟩
    have hub := final_dist_le_path g st hInv hq x y c hc
    have hne : st.dist (cellIdx g x y) ≠ ⊤ := by
      intro htop
      rw [htop] at hub
      exact absurd (top_le_iff.mp hub) (WithTop.coe_ne_top)
    obtain ⟨x', y', c0, hi, hvp, hd⟩ := hInv.dPath _ hne
    obtain ⟨j1, j2, j3, j4⟩ := validPath_interior g hIM x' y' c0 hvp
    obtain ⟨hxx, hyy⟩ := cellIdx_inj g x y x' y' hx0 hx1 hy0 hy1
      (by omega) (by omega) (by omega) (by omega) hi
    rw [← hxx, ← hyy] at hvp
    refine ⟨c0, ⟨hvp, ?_⟩, hd⟩
    intro c2 hc2
    have hub2 := final_dist_le_path g st hInv hq x y c2 hc2
    rw [hd] at hub2
    exact WithTop.coe_le_coe.mp hub2
  · intro x y hx0 hx1 hy0 hy1 hcase
    rcases hcase with hmf | hnp
    · exact hInv.dMask _ hmf
    · by_contra hne
      obtain ⟨x', y', c0, hi, hvp, _⟩ := hInv.dPath _ hne
      obtain ⟨j1, j2, j3, j4⟩ := validPath_interior g hIM x' y' c0 hvp
      obtain ⟨hxx, hyy⟩ := cellIdx_inj g x y x' y' hx0 hx1 hy0 hy1
        (by omega) (by omega) (by omega) (by omega) hi
      rw [← hxx, ← hyy] at hvp
      exact hnp ⟨c0, hvp⟩

/-- Witness for C4: a 3x3 grid whose only mask-true cell is the center.  The
center is a source; one wavefront step empties the queue, and the final
distance at the center is 0. -/
theorem C4_setDistanceToBoundary_witness :
    InteriorMask ⟨3, 3, [false, false, false, false, true, false, false, false, false]⟩ ∧
    (initDState ⟨3, 3, [false, false, false, false, true, false, false, false, false]⟩).queue
      = [] ++ ((0 : Cost), (1 : ℤ), (1 : ℤ)) :: [] ∧
    (relaxAll ⟨3, 3, [false, false, false, false, true, false, false, false, false]⟩ 0 1 1
      ⟨(initDState ⟨3, 3, [false, false, false, false, true, false, false, false, false]⟩).dist,
        [] ++ []⟩).queue = [] ∧
    (relaxAll ⟨3, 3, [false, false, false, false, true, false, false, false, false]⟩ 0 1 1
      ⟨(initDState ⟨3, 3, [false, false, false, false, true, false, false, false, false]⟩).dist,
        [] ++ []⟩).dist
      (cellIdx ⟨3, 3, [false, false, false, false, true, false, false, false, false]⟩ 1 1)
      = 0 := by
  have hIM : InteriorMask ⟨3, 3, [false, false, false, false, true, false, false, false, false]⟩ := by
    intro x y hx0 hx1 hy0 hy1 hm
    have hx1' : x < 3 := by exact_mod_cast hx1
    have hy1' : y < 3 := by exact_mod_cast hy1
    interval_cases x <;> interval_cases y <;> revert hm <;> decide
  refine ⟨hIM, rfl, rfl, ?_⟩
  exact ((C4_setDistanceToBoundary
      ⟨3, 3, [false, false, false, false, true, false, false, false, false]⟩ hIM
      (relaxAll ⟨3, 3, [false, false, false, false, true, false, false, false, false]⟩ 0 1 1
        ⟨(initDState ⟨3, 3, [false, false, false, false, true, false, false, false, false]⟩).dist,
          [] ++ []⟩)
      (Relation.ReflTransGen.single
        (DStep.pop 0 1 1 [] []
          (initDState ⟨3, 3, [false, false, false, false, true, false, false, false, false]⟩)
          rfl))
      rfl).1 1 1 (by norm_num) (by norm_num) (by norm_num) (by norm_num)).mpr
    ⟨by decide, ⟨by decide, by decide, by decide, by decide⟩, Or.inl (by decide)⟩
